import Mathlib

/-!
Verification development for `dateorgimgs` (`src/main.rs`), a tool that renames a
directory of photo files into a chronologically sorted, sequentially numbered
naming scheme.

The Rust source is shallowly embedded below.  Strings are modelled as `List Char`
(byte-for-byte identical to Rust `String` for the ASCII data these claims are
about; Rust's `Ord` on `String` is lexicographic byte order, which coincides with
lexicographic order on `Char` code points for ASCII).  Filesystem paths are
modelled as a parent directory plus a file name, which is exactly the shape every
path has in this program (paths come from `read_dir(dir)`, so they are
`dir/<file_name>`).  Filesystem side effects (renames, sidecar writes, printed
lines) are returned as explicit effect lists.  A Rust `panic!`/`unwrap` failure
is modelled as `Option.none` in the function's result; a recoverable `Result::Err`
that the caller handles is modelled separately, see `ReadOutcome`.

External collaborators are modelled by their narrow observable interfaces:
  * `rexiv2`: `Metadata::new_from_path` either fails (recoverable error) or
    yields a record of optional tag strings; `get_tag_string` on an absent tag
    returns `Err(Rexiv2Error::NoValue)` (it never yields an empty string for an
    absent tag), which is what `ExifData`'s `Option` fields encode.
  * `chrono`: `NaiveDateTime::parse_from_str(s, "%Y:%m:%d  %H:%M:%S")` is
    modelled by `parseExifDate`; the model accepts a superset of what chrono
    accepts (it checks shape, digits and simple field ranges but not
    month-length/leap-year calendar validity), so `parseExifDate s = none`
    implies chrono also fails on `s`.  Comparison of `chrono::NaiveDateTime`
    values is chronological, which `DateTime.key` realizes for calendar-valid
    field values.
  * `minidom`: a sidecar XML document is modelled by `Sidecar` as the data the
    program observes: the optional `RDF` child, its optional `Description`
    child, and that element's attribute list.
-/

/-- Strings of the embedding: lists of characters.  For the ASCII data handled
here this is byte-faithful to Rust `String`. -/
abbrev Str := List Char

/-- Prepend a character to the first piece of a split (helper for
`splitOnChar`; the `[]` case never arises since a split is never empty). -/
def consHead (c : Char) : List Str → List Str
  | [] => [[c]]
  | p :: ps => (c :: p) :: ps

/-- Rust `str::split('.')` (and, generally, `split(c)`): splits at every
occurrence of the separator; splitting the empty string yields `[""]`. -/
def splitOnChar (sep : Char) : Str → List Str
  | [] => [[]]
  | c :: cs =>
    if c = sep then [] :: splitOnChar sep cs else consHead c (splitOnChar sep cs)

/-- Rust `Vec::join(".")` (and, generally, `join(c)`). -/
def joinSep (sep : Char) : List Str → Str
  | [] => []
  | [p] => p
  | p :: ps => p ++ sep :: joinSep sep ps

/-- Rust `str::to_ascii_lowercase` (Lean's `Char.toLower` lowercases exactly
the ASCII range, as `to_ascii_lowercase` does). -/
def lowerStr (s : Str) : Str := s.map Char.toLower

/-- Lexicographic (byte) order on strings, as in Rust's `Ord for String`:
`strLt a b = true` iff `a` is strictly lexicographically smaller than `b`. -/
def strLt : Str → Str → Bool
  | _, [] => false
  | [], _ :: _ => true
  | a :: as, b :: bs => if a < b then true else if b < a then false else strLt as bs

/-- Non-strict lexicographic order on strings (`a ≤ b` iff `¬ b < a`). -/
def strLe (a b : Str) : Bool := ! strLt b a

/-- The decimal digit character for `n % 10`, as produced by Rust's decimal
formatting. -/
def digCh (n : Nat) : Char :=
  match n % 10 with
  | 0 => '0' | 1 => '1' | 2 => '2' | 3 => '3' | 4 => '4'
  | 5 => '5' | 6 => '6' | 7 => '7' | 8 => '8' | _ => '9'

/-- The `w` low-order decimal digits of `i`, most significant first.  For
`i < 10 ^ w` this is the decimal representation of `i` zero-padded to exactly
`w` digits. -/
def padNum : Nat → Nat → Str
  | 0, _ => []
  | w + 1, i => digCh (i / 10 ^ w) :: padNum w (i % 10 ^ w)

/-- Fuel-driven digit counter (structurally recursive so that the kernel can
evaluate it; the fuel is an upper bound on the recursion depth). -/
def digitsLenAux : Nat → Nat → Nat
  | 0, _ => 1
  | fuel + 1, n => if n < 10 then 1 else digitsLenAux fuel (n / 10) + 1

/-- Number of digits in the decimal representation of `i` (1 for 0–9, 2 for
10–99, …); equals `Nat.log 10 i + 1`, see `decimalDigits_eq_log`. -/
def decimalDigits (i : Nat) : Nat := digitsLenAux i i

/-- Rust `format!("{:0w$}", i)`: the decimal representation of `i`, zero-padded
on the left to a minimum width of `w`. -/
def padIndex (w i : Nat) : Str := padNum (max w (decimalDigits i)) i

/-- Capture timestamp, the observable content of a `chrono::NaiveDateTime`
(no timezone). -/
structure DateTime where
  year : Nat
  month : Nat
  day : Nat
  hour : Nat
  minute : Nat
  second : Nat
deriving DecidableEq

instance : Inhabited DateTime := ⟨⟨0, 0, 0, 0, 0, 0⟩⟩

/-- Chronological comparison key.  For calendar-valid field values (month ≤ 12,
day ≤ 31, hour < 24, minute < 60, second < 60 — which `parseExifDate`
guarantees for every timestamp entering the pipeline) `d₁.key < d₂.key` iff
`d₁` is chronologically before `d₂`, matching `Ord for chrono::NaiveDateTime`. -/
def DateTime.key (d : DateTime) : Nat :=
  d.second + 60 * (d.minute + 60 * (d.hour + 24 * (d.day + 32 * (d.month + 13 * d.year))))

/-- Rust `img.date.format("%Y-%m-%d %H-%M-%S")`: the timestamp rendered with
zero-padded fields, e.g. `2024-01-01 12-00-00`. -/
def fmtDate (d : DateTime) : Str :=
  padNum 4 d.year ++ '-' :: padNum 2 d.month ++ '-' :: padNum 2 d.day
    ++ ' ' :: padNum 2 d.hour ++ '-' :: padNum 2 d.minute ++ '-' :: padNum 2 d.second

/-- A filesystem path as this program manipulates it: every path is a directory
(the scanned directory, `Path::parent`) joined with a file name
(`Path::file_name`).  The scanned directory is a non-empty string, so
`Path::to_str` renders such a path as `parent ++ "/" ++ name` (`pathStr`). -/
structure FsPath where
  parent : Str
  name : Str
deriving DecidableEq

/-- Rust `PathBuf::to_str` for a `parent`/`name` path with non-empty parent. -/
def pathStr (p : FsPath) : Str := p.parent ++ '/' :: p.name

/-- Rust `Path::file_stem`: the file name up to (excluding) the last `.`, the
whole name when it contains no `.`.  (Names beginning with a lone `.` differ in
Rust, but the scanner drops dotfiles before any use of this function.) -/
def fileStem (name : Str) : Str :=
  let parts := splitOnChar '.' name
  if 2 ≤ parts.length then joinSep '.' parts.dropLast else name

/-- Rust `Path::extension`: the file name after the last `.`, or `None` when the
name contains no `.` (same caveat about leading-dot names as `fileStem`). -/
def extOf (name : Str) : Option Str :=
  let parts := splitOnChar '.' name
  if 2 ≤ parts.length then parts.getLast? else none

/-- Source `enum ImgRole { Raw, CameraJPG }`. -/
inductive ImgRole where
  | Raw
  | CameraJPG
deriving DecidableEq

/-- Observable content of the `rdf:Description` element of a sidecar document:
its attribute list (`minidom` attribute names are unique within an element). -/
structure RdfDesc where
  attrs : List (Str × Str)
deriving DecidableEq

/-- Observable content of the `rdf:RDF` element: its first `Description` child
in the RDF namespace, when present. -/
structure RdfElem where
  desc : Option RdfDesc
deriving DecidableEq

/-- A parsed sidecar document as observed by `rewrite_sidecar_file`: the first
`RDF` child of the root in the RDF namespace, when present. -/
structure Sidecar where
  rdf : Option RdfElem
deriving DecidableEq

/-- Source `struct ImgInfo`. -/
structure ImgInfo where
  path : FsPath
  sidecar_path : Option FsPath
  date : DateTime
  model : Str
deriving DecidableEq

instance : Inhabited ImgInfo := ⟨⟨⟨[], []⟩, none, default, []⟩⟩

/-- Source `ImgInfo::base_path`:
`path.parent().join(path.file_stem())` rendered as a string. -/
def ImgInfo.base_path (i : ImgInfo) : Str :=
  i.path.parent ++ '/' :: fileStem i.path.name

/-- Source `ImgInfo::role`: the role derived from the ASCII-lowercased file
extension.  `none` covers both outcomes that make the callers panic: a file
name without an extension (where the source's `extension().unwrap()` panics
inside `role` itself) and an unrecognized extension (where `role` returns
`None`, on which `build_imgs_groups` calls `.unwrap()`). -/
def ImgInfo.role (i : ImgInfo) : Option ImgRole :=
  match extOf i.path.name with
  | none => none
  | some e =>
    let le := lowerStr e
    if le = "nef".toList then some ImgRole.Raw
    else if le = "raf".toList then some ImgRole.Raw
    else if le = "jpg".toList then some ImgRole.CameraJPG
    else none

/-- Source `struct ImgGroup`: a `HashMap<ImgRole, ImgInfo>`, modelled as an
association list of role/image pairs in which each role occurs at most once.
The list order stands for the hash map's iteration order. -/
structure ImgGroup where
  members : List (ImgRole × ImgInfo)
deriving DecidableEq

/-- Source `ImgGroup::first_img` (`members.values().next().expect(..)`); the
source panics on an empty group, which `build_imgs_groups` never produces
(see `build_groups_members_ne_nil`); on the empty list this model returns a
dummy image. -/
def ImgGroup.first_img (g : ImgGroup) : ImgInfo :=
  match g.members with
  | [] => default
  | m :: _ => m.2

/-- Source `ImgGroup::date`. -/
def ImgGroup.date (g : ImgGroup) : DateTime := g.first_img.date

/-- Source `ImgGroup::base_path`. -/
def ImgGroup.basePathG (g : ImgGroup) : Str := g.first_img.base_path

/-- The tag strings of a successfully opened metadata record.  A `none` field
means the tag is absent, in which case `rexiv2::get_tag_string` returns
`Err(Rexiv2Error::NoValue)`. -/
structure ExifData where
  dateTimeOriginal : Option Str
  model : Option Str
deriving DecidableEq

/-- One directory entry as the scanner observes it: its file name, whether
`file_type()` succeeded and reported a directory, and the result of
`rexiv2::Metadata::new_from_path` (`none` = the metadata library failed on
this file). -/
structure DirEntry where
  name : Str
  typeOk : Bool
  isDir : Bool
  meta : Option ExifData
deriving DecidableEq

/-- Decimal-digit test. -/
def isDigitCh (c : Char) : Bool := '0' ≤ c ∧ c ≤ '9'

/-- Whitespace test (the characters chrono's whitespace format item skips that
can occur in EXIF tag strings). -/
def isWsCh (c : Char) : Bool := c = ' ' ∨ c = '\t'

/-- Numeric value of an all-digit string. -/
def digitsVal (s : Str) : Nat := s.foldl (fun a c => 10 * a + (c.toNat - 48)) 0

/-- Model of
`chrono::NaiveDateTime::parse_from_str(s, "%Y:%m:%d  %H:%M:%S").unwrap()`'s
success/failure and parsed value.  The format's whitespace item matches any
(possibly empty) run of whitespace.  The model checks the `:`-separated shape,
digit-ness and the simple field ranges; unlike chrono it does not reject
calendar-impossible day-of-month values, so it accepts a superset of chrono's
language: whenever `parseExifDate s = none`, chrono's parse also errors
(and the source's `.unwrap()` panics). -/
def parseExifDate (s : Str) : Option DateTime :=
  match splitOnChar ':' s with
  | [ys, mos, dhs, mis, ss] =>
    let ds := dhs.takeWhile isDigitCh
    let rest := dhs.drop ds.length
    let hs := rest.dropWhile isWsCh
    if ys ≠ [] ∧ ys.all isDigitCh ∧ ys.length ≤ 4
        ∧ mos ≠ [] ∧ mos.all isDigitCh ∧ mos.length ≤ 2
        ∧ ds ≠ [] ∧ ds.length ≤ 2
        ∧ rest.take (rest.length - hs.length) = rest.takeWhile isWsCh
        ∧ hs ≠ [] ∧ hs.all isDigitCh ∧ hs.length ≤ 2
        ∧ mis ≠ [] ∧ mis.all isDigitCh ∧ mis.length ≤ 2
        ∧ ss ≠ [] ∧ ss.all isDigitCh ∧ ss.length ≤ 2
        ∧ 1 ≤ digitsVal mos ∧ digitsVal mos ≤ 12
        ∧ 1 ≤ digitsVal ds ∧ digitsVal ds ≤ 31
        ∧ digitsVal hs ≤ 23 ∧ digitsVal mis ≤ 59 ∧ digitsVal ss ≤ 59 then
      some ⟨digitsVal ys, digitsVal mos, digitsVal ds, digitsVal hs,
            digitsVal mis, digitsVal ss⟩
    else none
  | _ => none

/-- Source `find_sidecar_path`: the probe for `<file name>.xmp` next to the
image, evaluated against the scanned directory's entries (`is_file()` excludes
directories). -/
def find_sidecar_path (dirPath : Str) (dir : List DirEntry) (name : Str) : Option FsPath :=
  if dir.any fun e => e.name = name ++ ".xmp".toList ∧ ¬ e.isDir then
    some ⟨dirPath, name ++ ".xmp".toList⟩
  else none

/-- Outcome of `read_img` on one entry, separating the error the caller
handles (`err`, a returned `Rexiv2Error`) from an internal `panic!`
(`panicked`, from an `unwrap()` inside `read_img`). -/
inductive ReadOutcome where
  | ok (img : ImgInfo)
  | err
  | panicked
deriving DecidableEq

/-- Source `read_img`, step by step:
1. `Metadata::new_from_path(..)?` — a library failure is returned as `Err`;
2. `metadata.get_tag_string(date_tag)?` — an absent timestamp tag is
   `Err(NoValue)`, returned to the caller;
3. `metadata.get_tag_string(model_tag).unwrap()` — an absent model tag is
   `Err(NoValue)`, and the `unwrap` panics;
4. `NaiveDateTime::parse_from_str(..).unwrap()` — an unparseable timestamp
   string panics. -/
def read_img (dirPath : Str) (dir : List DirEntry) (e : DirEntry) : ReadOutcome :=
  match e.meta with
  | none => .err
  | some md =>
    match md.dateTimeOriginal with
    | none => .err
    | some dateStr =>
      match md.model with
      | none => .panicked
      | some model =>
        match parseExifDate dateStr with
        | none => .panicked
        | some date =>
          .ok { path := ⟨dirPath, e.name⟩
                sidecar_path := find_sidecar_path dirPath dir e.name
                date := date
                model := model }

/-- Scanner's entry filter (the `continue` cases of `scan_for_images`'s first
loop): keep an entry iff its name does not start with `.`, `file_type()`
succeeded and is not a directory, and the extension is not (exactly,
case-sensitively) `xmp`. -/
def keepEntry (e : DirEntry) : Bool :=
  e.name.head? ≠ some '.' ∧ e.typeOk ∧ ¬ e.isDir ∧ extOf e.name ≠ some "xmp".toList

/-- The warning line `scan_for_images` prints for a skipped file. -/
def skipWarning (dirPath : Str) (e : DirEntry) : Str :=
  "Error reading image metatada from ".toList ++ pathStr ⟨dirPath, e.name⟩
    ++ ". Skipping.".toList

/-- The fan-out over candidates (source: `entries.par_iter().filter_map(..)`).
`rayon`'s `collect` preserves input order; a panic in any worker propagates and
aborts the whole scan (modelled as `none`).  Returns the surviving images and
the warning lines printed for skipped files. -/
def scanEntries (dirPath : Str) (dir : List DirEntry) :
    List DirEntry → Option (List ImgInfo × List Str)
  | [] => some ([], [])
  | e :: es =>
    match read_img dirPath dir e with
    | .panicked => none
    | .err =>
      match scanEntries dirPath dir es with
      | none => none
      | some (imgs, warns) => some (imgs, skipWarning dirPath e :: warns)
    | .ok img =>
      match scanEntries dirPath dir es with
      | none => none
      | some (imgs, warns) => some (img :: imgs, warns)

/-- Source `scan_for_images`: filter the directory entries, then read each
candidate's metadata, skipping (with a warning) files whose metadata read
returns an error and aborting (`none`) if any read panics. -/
def scan_for_images (dirPath : Str) (dir : List DirEntry) :
    Option (List ImgInfo × List Str) :=
  scanEntries dirPath dir (dir.filter keepEntry)

/-- Rust `HashMap::insert` on the role map of a group: replace the value when
the role is already a key (keeping its position in the iteration order),
otherwise add a new entry. -/
def insertMember (r : ImgRole) (i : ImgInfo) : List (ImgRole × ImgInfo) → List (ImgRole × ImgInfo)
  | [] => [(r, i)]
  | m :: ms => if m.1 = r then (r, i) :: ms else m :: insertMember r i ms

/-- One step of the grouping loop: find (or lazily create) the group for the
image's base path and insert the image under its role. -/
def addToGroups (acc : List (Str × ImgGroup)) (ri : ImgRole × ImgInfo) :
    List (Str × ImgGroup) :=
  match acc with
  | [] => [(ri.2.base_path, ⟨[ri]⟩)]
  | (k, g) :: rest =>
    if k = ri.2.base_path then (k, ⟨insertMember ri.1 ri.2 g.members⟩) :: rest
    else (k, g) :: addToGroups rest ri

/-- The grouping loop of `build_imgs_groups` over role-tagged images.  The
`HashMap<String, ImgGroup>` is modelled as an association list; a key's
position is its first-insertion position (any fixed convention would do — the
caller sorts the groups before use, and all observable orderings are the
member orderings, which `buildPerm` makes explicit). -/
def foldGroups (tagged : List (ImgRole × ImgInfo)) : List (Str × ImgGroup) :=
  tagged.foldl addToGroups []

/-- Sort relation of `build_imgs_groups`'s
`sort_by(|a, b| a.date().cmp(&b.date()).then(a.base_path().cmp(&b.base_path())))`:
group `a` may precede group `b` iff `a`'s representative date is before `b`'s,
or the dates are equal and `a`'s representative base path is lexicographically
`≤` `b`'s. -/
def GroupLe (a b : ImgGroup) : Prop :=
  a.date.key < b.date.key ∨ (a.date.key = b.date.key ∧ strLe a.basePathG b.basePathG = true)

instance : DecidableRel GroupLe := fun a b => by
  unfold GroupLe; infer_instance

/-- The role-tagging pass of `build_imgs_groups`'s loop: for each image in
order, `img.role().unwrap()` — `none` (panic) as soon as an image has no
recognized role. -/
def tagImgs : List ImgInfo → Option (List (ImgRole × ImgInfo))
  | [] => some []
  | i :: is =>
    match i.role with
    | none => none
    | some r =>
      match tagImgs is with
      | none => none
      | some t => some ((r, i) :: t)

/-- Source `build_imgs_groups`, parameterized by the `HashMap<ImgRole, ImgInfo>`
iteration order: `reorder` is applied to each group's member list and stands
for the order in which `members.values()` yields the members — arbitrary and
seeded per process for `std::collections::HashMap`.  The result is `none` when
`img.role().unwrap()` panics, i.e. when some image has no recognized role.
The real function is `build_imgs_groups = buildPerm id` for whatever order the
hash map happens to produce; theorems about order-sensitivity quantify over
`reorder` functions that permute their argument. -/
def buildPerm (reorder : List (ImgRole × ImgInfo) → List (ImgRole × ImgInfo))
    (imgs : List ImgInfo) : Option (List ImgGroup) :=
  match tagImgs imgs with
  | none => none
  | some tagged =>
    let groups := (foldGroups tagged).map fun kg => ImgGroup.mk (reorder kg.2.members)
    some (List.insertionSort GroupLe groups)

/-- Source `build_imgs_groups` with the member iteration order that falls out
of insertion order (one fixed admissible `HashMap` iteration order). -/
def build_imgs_groups (imgs : List ImgInfo) : Option (List ImgGroup) :=
  buildPerm id imgs

/-- The exact-real-arithmetic value of the source's automatic digit-width
computation `((groups.len() + 1) as f32).log10().ceil() as usize`, i.e.
`⌈log₁₀ (n + 1)⌉`.  The source computes this with `f32` arithmetic and the
platform's `log10f`; see claim C7 — the claims proved below either take the
width as a parameter or only rely on this value where the float computation
agrees with the exact one.  For `n ≥ 1` the exact value `⌈log₁₀ (n + 1)⌉`
equals the digit count of `n` (`decimalDigits n = Nat.log 10 n + 1`). -/
def autoDigits (n : Nat) : Nat := if n = 0 then 0 else decimalDigits n

/-- Digit width used by `reorganize_images`: the configured width if any,
otherwise the automatic one. -/
def digitsOf (digits : Option Nat) (n : Nat) : Nat :=
  match digits with
  | some d => d
  | none => autoDigits n

/-- The line `rename_file` prints for a non-no-op rename:
`format!("{}/{{{} -> {}}}", parent, src_file_name, target_file_name)`,
i.e. `parent/` followed by `src -> target` in braces. -/
def renameLine (parent srcName targetName : Str) : Str :=
  parent ++ "/\x7b".toList ++ srcName ++ " -> ".toList ++ targetName ++ "\x7d".toList

/-- The suffix-free part of the file name `rename_file` computes:
`format!("{:0digits$} {} {}", index, date_str, model)` without a configured
prefix, `format!("{:0digits$} {} {} {}", index, date_str, prefix, model)`
with one. -/
def targetStem (index : Nat) (img : ImgInfo) (pfx : Str) (index_digits : Nat) : Str :=
  if pfx = [] then
    padIndex index_digits index ++ ' ' :: fmtDate img.date ++ ' ' :: img.model
  else
    padIndex index_digits index ++ ' ' :: fmtDate img.date ++ ' ' :: pfx
      ++ ' ' :: img.model

/-- The new file name `rename_file` computes: the zero-padded index, the
formatted timestamp, the optional prefix, the camera model (space separated,
see `targetStem`), followed by the preserved suffix of the source file name —
its last dot-separated component, or its last two when the last one is (ASCII
case-insensitively) `xmp`. -/
def targetFileName (index : Nat) (img : ImgInfo) (pfx : Str) (index_digits : Nat)
    (srcName : Str) : Str :=
  let parts := splitOnChar '.' srcName
  let suffix_parts : Nat :=
    match parts.getLast? with
    | some e => if lowerStr e = "xmp".toList then 2 else 1
    | none => 0
  let sfx : Str :=
    match suffix_parts with
    | 0 => []
    | i => '.' :: joinSep '.' (parts.drop (parts.length - i))
  targetStem index img pfx index_digits ++ sfx

/-- Result of `rename_file`: the returned path plus the effects performed —
the filesystem renames issued and the lines printed. -/
structure RenameOut where
  path : FsPath
  renames : List (FsPath × FsPath)
  prints : List Str
deriving DecidableEq

/-- Source `rename_file`.  The target path is the source's parent joined with
the computed file name.  When the target differs from the source the mapping
is printed, and — unless `dryrun` — the filesystem rename is performed.  The
returned path is the source path under `dryrun`, the target path otherwise.
Filesystem errors of `fs::rename` (environmental) are outside the model. -/
def rename_file (src_path : FsPath) (index : Nat) (img : ImgInfo) (pfx : Str)
    (index_digits : Nat) (dryrun : Bool) : RenameOut :=
  let target_file_name := targetFileName index img pfx index_digits src_path.name
  let target_path : FsPath := ⟨src_path.parent, target_file_name⟩
  { path := if dryrun then src_path else target_path
    renames := if target_path ≠ src_path ∧ ¬ dryrun then [(src_path, target_path)] else []
    prints := if target_path ≠ src_path
      then [renameLine src_path.parent src_path.name target_file_name] else [] }

/-- Replace the value of the first attribute with the given name. -/
def setAttr (key val : Str) : List (Str × Str) → List (Str × Str)
  | [] => []
  | kv :: kvs => if kv.1 = key then (kv.1, val) :: kvs else kv :: setAttr key val kvs

/-- The cross-reference attribute's name, `xmpMM:DerivedFrom`. -/
def derivedFromKey : Str := "xmpMM:DerivedFrom".toList

/-- Source `rewrite_sidecar_file`, applied to the parsed document `doc` of the
file at `sidecar_path`.  The structural checks (missing `RDF` element, missing
`Description` element, missing `xmpMM:DerivedFrom` attribute) run before the
`dryrun` test; only the final serialization back to `sidecar_path` is gated by
`dryrun`.  On success it returns the updated document — with the attribute set
to the string form of `img_path` — and the list of file writes performed. -/
def rewrite_sidecar_file (doc : Sidecar) (sidecar_path img_path : FsPath)
    (dryrun : Bool) : Except Str (Sidecar × List FsPath) :=
  match doc.rdf with
  | none => .error "Can't find RDF element in Sidecar file".toList
  | some rdfe =>
    match rdfe.desc with
    | none => .error "Can't find RDF Description element in Sidecar file".toList
    | some desc =>
      if desc.attrs.any fun kv => kv.1 = derivedFromKey then
        let doc' : Sidecar := ⟨some ⟨some ⟨setAttr derivedFromKey (pathStr img_path) desc.attrs⟩⟩⟩
        .ok (doc', if dryrun then [] else [sidecar_path])
      else .error "Can't find DerivedFrom attribute in Sidecar file".toList

/-- Accumulated observable effects of `reorganize_images`: the filesystem
renames and sidecar writes performed, the lines printed, the
`(sidecar_path, img_path)` argument pairs passed to `rewrite_sidecar_file`,
the sequence index used for each group processed, and whether the run
completed without error (`ok = false` means a sidecar error aborted it). -/
structure ReorgOut where
  renames : List (FsPath × FsPath)
  writes : List FsPath
  prints : List Str
  patches : List (FsPath × FsPath)
  idxs : List Nat
  ok : Bool
deriving DecidableEq

/-- Sequential composition of effect records (`b` happened after `a`). -/
def ReorgOut.comb (a b : ReorgOut) : ReorgOut :=
  ⟨a.renames ++ b.renames, a.writes ++ b.writes, a.prints ++ b.prints,
   a.patches ++ b.patches, a.idxs ++ b.idxs, b.ok⟩

/-- Empty effect record. -/
def ReorgOut.nil : ReorgOut := ⟨[], [], [], [], [], true⟩

/-- Body of `reorganize_images`'s inner loop for one group member: rename the
image file; if it has a sidecar, rename the sidecar and patch its
cross-reference to the image's returned path.  `docs sp` is the parsed content
of the sidecar file recorded at (pre-rename) path `sp`; the rename moves the
file's bytes unmodified, so the document read back at the renamed location (or
at `sp` itself under `dryrun`) is `docs sp`. -/
def processMember (docs : FsPath → Sidecar) (index : Nat) (pfx : Str) (w : Nat)
    (dryrun : Bool) (m : ImgRole × ImgInfo) : ReorgOut :=
  let r1 := rename_file m.2.path index m.2 pfx w dryrun
  match m.2.sidecar_path with
  | none => ⟨r1.renames, [], r1.prints, [], [], true⟩
  | some sp =>
    let r2 := rename_file sp index m.2 pfx w dryrun
    match rewrite_sidecar_file (docs sp) r2.path r1.path dryrun with
    | .ok (_, ws) =>
      ⟨r1.renames ++ r2.renames, ws, r1.prints ++ r2.prints, [(r2.path, r1.path)], [], true⟩
    | .error _ =>
      ⟨r1.renames ++ r2.renames, [], r1.prints ++ r2.prints, [(r2.path, r1.path)], [], false⟩

/-- The member loop of `reorganize_images` for one group (the `?` on the two
`rename_file` calls cannot fire in the model — filesystem errors are outside
it — and the `?` on `rewrite_sidecar_file` aborts the run). -/
def processMembers (docs : FsPath → Sidecar) (index : Nat) (pfx : Str) (w : Nat)
    (dryrun : Bool) : List (ImgRole × ImgInfo) → ReorgOut
  | [] => ReorgOut.nil
  | m :: ms =>
    let s := processMember docs index pfx w dryrun m
    if s.ok then s.comb (processMembers docs index pfx w dryrun ms) else s

/-- The group loop of `reorganize_images`: `(1..).zip(groups)` gives group
number `index` to the group at (1-based) position `index`. -/
def processGroups (docs : FsPath → Sidecar) (pfx : Str) (w : Nat) (dryrun : Bool) :
    Nat → List ImgGroup → ReorgOut
  | _, [] => ReorgOut.nil
  | index, g :: gs =>
    let s := { processMembers docs index pfx w dryrun g.members with idxs := [index] }
    if s.ok then s.comb (processGroups docs pfx w dryrun (index + 1) gs) else s

/-- Source `reorganize_images`: determine the digit width (configured, or
computed from the group count), then process the groups in order, numbering
them from 1. -/
def reorganize_images (groups : List ImgGroup) (pfx : Str) (dryrun : Bool)
    (digits : Option Nat) (docs : FsPath → Sidecar) : ReorgOut :=
  processGroups docs pfx (digitsOf digits groups.length) dryrun 1 groups

/-! ### Order properties of the lexicographic string comparison -/

theorem strLt_irrefl (a : Str) : strLt a a = false := by
  induction a with
  | nil => rfl
  | cons c cs ih => simp [strLt, ih]

theorem strLt_asymm : ∀ {a b : Str}, strLt a b = true → strLt b a = false
  | [], [], h => by simp [strLt] at h
  | [], _ :: _, _ => rfl
  | _ :: _, [], h => by simp [strLt] at h
  | a1 :: as, b1 :: bs, h => by
    simp only [strLt] at h ⊢
    rcases lt_trichotomy a1 b1 with hlt | rfl | hgt
    · simp [hlt, not_lt_of_gt hlt]
    · simp only [lt_irrefl, if_false] at h ⊢
      exact strLt_asymm h
    · simp [hgt, not_lt_of_gt hgt] at h

theorem strLt_trans : ∀ {a b c : Str}, strLt a b = true → strLt b c = true →
    strLt a c = true
  | _, [], _, h1, _ => by simp [strLt] at h1
  | _, _, [], _, h2 => by simp [strLt] at h2
  | [], _ :: _, _ :: _, _, _ => rfl
  | _ :: _, _ :: _, _ :: _, h1, h2 => by
    rename_i a1 as b1 bs c1 cs
    simp only [strLt] at h1 h2 ⊢
    rcases lt_trichotomy a1 b1 with hab | rfl | hab
    · rcases lt_trichotomy b1 c1 with hbc | rfl | hbc
      · simp [lt_trans hab hbc]
      · simp [hab]
      · simp [not_lt_of_gt hbc, hbc] at h2
    · simp only [lt_irrefl, if_false] at h1
      rcases lt_trichotomy a1 c1 with hac | rfl | hac
      · simp [hac]
      · simp only [lt_irrefl, if_false] at h2 ⊢
        exact strLt_trans h1 h2
      · simp [not_lt_of_gt hac, hac] at h2
    · simp [not_lt_of_gt hab, hab] at h1

theorem strLt_connex : ∀ {a b : Str}, strLt a b = false → strLt b a = false → a = b
  | [], [], _, _ => rfl
  | [], _ :: _, h1, _ => by simp [strLt] at h1
  | _ :: _, [], _, h2 => by simp [strLt] at h2
  | a1 :: as, b1 :: bs, h1, h2 => by
    simp only [strLt] at h1 h2
    rcases lt_trichotomy a1 b1 with hab | rfl | hab
    · simp [hab] at h1
    · simp only [lt_irrefl, if_false] at h1 h2
      exact congrArg (a1 :: ·) (strLt_connex h1 h2)
    · simp [hab] at h2

/-- Prepending a common prefix does not change the comparison. -/
theorem strLt_append_left (c : Str) (a b : Str) :
    strLt (c ++ a) (c ++ b) = strLt a b := by
  induction c with
  | nil => rfl
  | cons ch ct ih =>
    cases hab : strLt a b <;> simp [strLt, ih, hab]

/-- Comparing equal-length strings extends to any continuations. -/
theorem strLt_eqlen_append : ∀ {a b : Str}, a.length = b.length →
    strLt a b = true → ∀ (x y : Str), strLt (a ++ x) (b ++ y) = true
  | [], [], _, h, _, _ => by simp [strLt] at h
  | a1 :: as, b1 :: bs, hl, h, x, y => by
    simp only [List.length_cons, Nat.succ_inj] at hl
    simp only [strLt] at h
    simp only [List.cons_append, strLt]
    rcases lt_trichotomy a1 b1 with hab | rfl | hab
    · simp [hab]
    · simp only [lt_irrefl, if_false] at h ⊢
      exact strLt_eqlen_append hl h x y
    · simp [not_lt_of_gt hab, hab] at h
/-! ### Decimal padding lemmas -/

theorem digCh_ne_dot (n : Nat) : digCh n ≠ '.' := by
  unfold digCh
  split <;> decide

theorem digCh_lt_digCh {a b : Nat} (hab : a < b) (hb : b ≤ 9) :
    digCh a < digCh b := by
  interval_cases b <;> interval_cases a <;> decide

theorem padNum_length (w i : Nat) : (padNum w i).length = w := by
  induction w generalizing i with
  | zero => rfl
  | succ w ih => simp [padNum, ih]

theorem padNum_no_dot (w i : Nat) : '.' ∉ padNum w i := by
  induction w generalizing i with
  | zero => simp [padNum]
  | succ w ih =>
    intro h
    rcases List.mem_cons.mp h with h | h
    · exact digCh_ne_dot _ h.symm
    · exact ih _ h

theorem padNum_lt {w i j : Nat} (hij : i < j) (hj : j < 10 ^ w) :
    strLt (padNum w i) (padNum w j) = true := by
  induction w generalizing i j with
  | zero => omega
  | succ w ih =>
    simp only [padNum, strLt]
    have hpow : 0 < 10 ^ w := pow_pos (by norm_num) w
    have hq : i / 10 ^ w ≤ j / 10 ^ w := Nat.div_le_div_right (le_of_lt hij)
    have hjq : j / 10 ^ w ≤ 9 := by
      have hlt : j / 10 ^ w < 10 := by
        apply Nat.div_lt_of_lt_mul
        calc j < 10 ^ (w + 1) := hj
          _ = 10 ^ w * 10 := by ring
      omega
    rcases lt_or_eq_of_le hq with hlt | heq
    · simp [digCh_lt_digCh hlt hjq]
    · rw [heq]
      simp only [lt_irrefl, if_false]
      apply ih
      · have h1 := Nat.div_add_mod i (10 ^ w)
        have h2 := Nat.div_add_mod j (10 ^ w)
        rw [heq] at h1
        omega
      · exact Nat.mod_lt _ hpow

theorem digitsLenAux_eq_log {f n : Nat} (h : n ≤ f) :
    digitsLenAux f n = Nat.log 10 n + 1 := by
  induction f generalizing n with
  | zero =>
    obtain rfl : n = 0 := by omega
    simp [digitsLenAux]
  | succ f ih =>
    by_cases h10 : n < 10
    · rw [Nat.log_of_lt h10]
      simp [digitsLenAux, h10]
    · have hrec : Nat.log 10 n = Nat.log 10 (n / 10) + 1 := by
        rw [Nat.log]
        rw [dif_pos ⟨by omega, by omega⟩]
      have hdiv : n / 10 ≤ f := by
        have : n / 10 < n := Nat.div_lt_self (by omega) (by omega)
        omega
      simp only [digitsLenAux, if_neg h10]
      rw [ih hdiv, hrec]

theorem decimalDigits_eq_log (i : Nat) : decimalDigits i = Nat.log 10 i + 1 :=
  digitsLenAux_eq_log (le_refl i)

theorem padIndex_eq_padNum {w i : Nat} (h0 : 0 < i) (h : i < 10 ^ w) :
    padIndex w i = padNum w i := by
  unfold padIndex
  rw [decimalDigits_eq_log]
  have hlog : Nat.log 10 i + 1 ≤ w := by
    have := Nat.log_lt_of_lt_pow (by omega : i ≠ 0) h
    omega
  rw [Nat.max_eq_left hlog]

theorem padIndex_lt {w i j : Nat} (h0 : 0 < i) (hij : i < j) (hj : j < 10 ^ w) :
    strLt (padIndex w i) (padIndex w j) = true := by
  rw [padIndex_eq_padNum h0 (lt_trans hij hj), padIndex_eq_padNum (by omega) hj]
  exact padNum_lt hij hj

/-! ### Splitting and joining on a separator -/

theorem splitOnChar_ne_nil (sep : Char) (s : Str) : splitOnChar sep s ≠ [] := by
  induction s with
  | nil => simp [splitOnChar]
  | cons c cs ih =>
    by_cases hc : c = sep
    · simp [splitOnChar, hc]
    · cases h : splitOnChar sep cs with
      | nil => exact absurd h ih
      | cons p ps => simp [splitOnChar, hc, h, consHead]

theorem splitOnChar_cons_exists (sep : Char) (s : Str) :
    ∃ p ps, splitOnChar sep s = p :: ps := by
  cases h : splitOnChar sep s with
  | nil => exact absurd h (splitOnChar_ne_nil sep s)
  | cons p ps => exact ⟨p, ps, rfl⟩

theorem consHead_cons (c : Char) (p : Str) (ps : List Str) :
    consHead c (p :: ps) = (c :: p) :: ps := rfl

theorem consHead_append_of_ne_nil (c : Char) {xs : List Str} (h : xs ≠ [])
    (ys : List Str) : consHead c (xs ++ ys) = consHead c xs ++ ys := by
  cases xs with
  | nil => exact absurd rfl h
  | cons p ps => simp [consHead]

theorem splitOnChar_not_mem {sep : Char} {s : Str} (h : sep ∉ s) :
    splitOnChar sep s = [s] := by
  induction s with
  | nil => rfl
  | cons c cs ih =>
    have hc : ¬ c = sep := fun e => h (e ▸ List.mem_cons_self c cs)
    have ht : sep ∉ cs := fun m => h (List.mem_cons_of_mem _ m)
    simp [splitOnChar, hc, ih ht, consHead]

theorem splitOnChar_append {sep : Char} (s : Str) {t : Str} (ht : sep ∉ t) :
    splitOnChar sep (s ++ sep :: t) = splitOnChar sep s ++ [t] := by
  induction s with
  | nil => simp [splitOnChar, splitOnChar_not_mem ht]
  | cons c cs ih =>
    by_cases hc : c = sep
    · simp [splitOnChar, hc, ih]
    · simp only [List.cons_append, splitOnChar, if_neg hc, List.append_eq, ih]
      exact consHead_append_of_ne_nil c (splitOnChar_ne_nil sep cs) [t]

theorem joinSep_cons_cons (sep : Char) (c : Char) (p : Str) (ps : List Str) :
    joinSep sep ((c :: p) :: ps) = c :: joinSep sep (p :: ps) := by
  cases ps <;> simp [joinSep]

theorem joinSep_splitOnChar (sep : Char) (s : Str) :
    joinSep sep (splitOnChar sep s) = s := by
  induction s with
  | nil => rfl
  | cons c cs ih =>
    obtain ⟨p0, ps0, hps⟩ := splitOnChar_cons_exists sep cs
    by_cases hc : c = sep
    · subst hc
      rw [hps] at ih
      simp only [splitOnChar, if_pos rfl, hps, joinSep]
      simpa using ih
    · simp only [splitOnChar, if_neg hc, hps, consHead_cons, joinSep_cons_cons]
      rw [hps] at ih
      rw [ih]

theorem splitOnChar_parts_not_mem (sep : Char) (s : Str) :
    ∀ p ∈ splitOnChar sep s, sep ∉ p := by
  induction s with
  | nil =>
    intro p hp
    simp [splitOnChar] at hp
    simp [hp]
  | cons c cs ih =>
    intro p hp
    obtain ⟨p0, ps0, hps⟩ := splitOnChar_cons_exists sep cs
    by_cases hc : c = sep
    · rw [hc] at hp
      simp only [splitOnChar, if_pos rfl] at hp
      rcases List.mem_cons.mp hp with rfl | hp
      · simp
      · exact ih p hp
    · simp only [splitOnChar, if_neg hc, hps, consHead_cons] at hp
      rcases List.mem_cons.mp hp with rfl | hp
      · intro hm
        rcases List.mem_cons.mp hm with e | hm
        · exact hc e.symm
        · exact ih p0 (hps ▸ List.mem_cons_self p0 ps0) hm
      · exact ih p (hps ▸ List.mem_cons_of_mem p0 hp)

/-! ### Derived facts about file-name computations -/

theorem extOf_append_ext {s ext : Str} (he : '.' ∉ ext) :
    extOf (s ++ '.' :: ext) = some ext := by
  unfold extOf
  rw [splitOnChar_append s he]
  have h1 : 1 ≤ (splitOnChar '.' s).length :=
    List.length_pos.mpr (splitOnChar_ne_nil '.' s)
  rw [if_pos (by simp; omega)]
  exact List.getLast?_concat _

theorem fileStem_append_ext {s ext : Str} (he : '.' ∉ ext) :
    fileStem (s ++ '.' :: ext) = s := by
  unfold fileStem
  rw [splitOnChar_append s he]
  have h1 : 1 ≤ (splitOnChar '.' s).length :=
    List.length_pos.mpr (splitOnChar_ne_nil '.' s)
  rw [if_pos (by simp; omega), List.dropLast_concat]
  exact joinSep_splitOnChar '.' s

/-- Suffix preservation for a non-sidecar name: when the extension is not
(case-insensitively) `xmp`, the computed name keeps exactly the last
dot-separated component. -/
theorem targetFileName_plain {index : Nat} {img : ImgInfo} {pfx : Str} {w : Nat}
    {s ext : Str} (he : '.' ∉ ext) (hx : lowerStr ext ≠ "xmp".toList) :
    targetFileName index img pfx w (s ++ '.' :: ext)
      = targetStem index img pfx w ++ '.' :: ext := by
  have hsplit : splitOnChar '.' (s ++ '.' :: ext) = splitOnChar '.' s ++ [ext] :=
    splitOnChar_append s he
  have hlast : (splitOnChar '.' s ++ [ext]).getLast? = some ext := List.getLast?_concat _
  have hdrop : (splitOnChar '.' s ++ [ext]).drop ((splitOnChar '.' s ++ [ext]).length - 1)
      = [ext] := by
    have hl : (splitOnChar '.' s ++ [ext]).length - 1 = (splitOnChar '.' s).length := by simp
    rw [hl, List.drop_left]
  simp only [targetFileName, hsplit, hlast, if_neg hx, hdrop, joinSep]

/-- Suffix preservation for a sidecar name: when the last component is
(case-insensitively) `xmp`, the computed name keeps the last two dot-separated
components. -/
theorem targetFileName_xmp {index : Nat} {img : ImgInfo} {pfx : Str} {w : Nat}
    {s e x : Str} (he : '.' ∉ e) (hx : '.' ∉ x) (hlx : lowerStr x = "xmp".toList) :
    targetFileName index img pfx w ((s ++ '.' :: e) ++ '.' :: x)
      = targetStem index img pfx w ++ '.' :: (e ++ '.' :: x) := by
  have hsplit : splitOnChar '.' ((s ++ '.' :: e) ++ '.' :: x)
      = (splitOnChar '.' s ++ [e]) ++ [x] := by
    rw [splitOnChar_append _ hx, splitOnChar_append s he]
  have hlast : ((splitOnChar '.' s ++ [e]) ++ [x]).getLast? = some x := List.getLast?_concat _
  have hdrop : ((splitOnChar '.' s ++ [e]) ++ [x]).drop
      (((splitOnChar '.' s ++ [e]) ++ [x]).length - 2) = [e, x] := by
    have hl : ((splitOnChar '.' s ++ [e]) ++ [x]).length - 2 = (splitOnChar '.' s).length := by
      simp
    rw [hl, List.append_assoc, List.drop_left]
    rfl
  simp only [targetFileName, hsplit, hlast, if_pos hlx, hdrop, joinSep]

/-! ### Order properties of the group comparator -/

theorem strLe_iff {a b : Str} : strLe a b = true ↔ strLt b a = false := by
  unfold strLe
  cases strLt b a <;> simp

theorem strLe_trans {a b c : Str} (h1 : strLe a b = true) (h2 : strLe b c = true) :
    strLe a c = true := by
  rw [strLe_iff] at h1 h2 ⊢
  cases hca : strLt c a with
  | false => rfl
  | true =>
    exfalso
    cases hab : strLt a b with
    | true => exact absurd (strLt_trans hca hab) (by simp [h2])
    | false =>
      have : a = b := strLt_connex hab h1
      rw [this] at hca
      simp [hca] at h2

theorem strLe_total (a b : Str) : strLe a b = true ∨ strLe b a = true := by
  rw [strLe_iff, strLe_iff]
  cases hab : strLt a b with
  | true => exact Or.inl (strLt_asymm hab)
  | false => exact Or.inr rfl

instance : IsTrans ImgGroup GroupLe where
  trans a b c hab hbc := by
    rcases hab with h1 | ⟨e1, l1⟩
    · rcases hbc with h2 | ⟨e2, l2⟩
      · exact Or.inl (lt_trans h1 h2)
      · exact Or.inl (e2 ▸ h1)
    · rcases hbc with h2 | ⟨e2, l2⟩
      · exact Or.inl (e1 ▸ h2)
      · exact Or.inr ⟨e1.trans e2, strLe_trans l1 l2⟩

instance : IsTotal ImgGroup GroupLe where
  total a b := by
    rcases lt_trichotomy a.date.key b.date.key with h | h | h
    · exact Or.inl (Or.inl h)
    · rcases strLe_total a.basePathG b.basePathG with hl | hl
      · exact Or.inl (Or.inr ⟨h, hl⟩)
      · exact Or.inr (Or.inr ⟨h.symm, hl⟩)
    · exact Or.inr (Or.inl h)

/-! ### Effect-record lemmas -/

@[simp]
theorem ReorgOut.comb_renames (a b : ReorgOut) : (a.comb b).renames = a.renames ++ b.renames := rfl

@[simp]
theorem ReorgOut.comb_writes (a b : ReorgOut) : (a.comb b).writes = a.writes ++ b.writes := rfl

@[simp]
theorem ReorgOut.comb_prints (a b : ReorgOut) : (a.comb b).prints = a.prints ++ b.prints := rfl

@[simp]
theorem ReorgOut.comb_patches (a b : ReorgOut) : (a.comb b).patches = a.patches ++ b.patches := rfl

@[simp]
theorem ReorgOut.comb_idxs (a b : ReorgOut) : (a.comb b).idxs = a.idxs ++ b.idxs := rfl

@[simp]
theorem ReorgOut.comb_ok (a b : ReorgOut) : (a.comb b).ok = b.ok := rfl

theorem processGroups_idxs (docs : FsPath → Sidecar) (pfx : Str) (w : Nat)
    (dryrun : Bool) : ∀ (n : Nat) (gs : List ImgGroup),
    (processGroups docs pfx w dryrun n gs).ok = true →
    (processGroups docs pfx w dryrun n gs).idxs = List.range' n gs.length := by
  intro n gs
  induction gs generalizing n with
  | nil => intro _; rfl
  | cons g gs ih =>
    intro hok
    simp only [processGroups] at hok ⊢
    by_cases hs : (processMembers docs n pfx w dryrun g.members).ok = true
    · rw [if_pos hs] at hok ⊢
      simp only [ReorgOut.comb_ok] at hok
      simp only [ReorgOut.comb_idxs, List.length_cons, List.range'_succ]
      rw [ih (n + 1) hok]
      rfl
    · rw [if_neg hs] at hok
      exact absurd hok hs

/-- Deconstruction of a successful `build_imgs_groups`/`buildPerm` run. -/
theorem buildPerm_eq_some {reorder : List (ImgRole × ImgInfo) → List (ImgRole × ImgInfo)}
    {imgs : List ImgInfo} {gs : List ImgGroup}
    (hb : buildPerm reorder imgs = some gs) :
    ∃ tagged, tagImgs imgs = some tagged ∧
      gs = List.insertionSort GroupLe
        ((foldGroups tagged).map fun kg => ImgGroup.mk (reorder kg.2.members)) := by
  unfold buildPerm at hb
  cases hm : tagImgs imgs with
  | none => rw [hm] at hb; exact absurd hb (by simp)
  | some tagged =>
    rw [hm] at hb
    simp only [Option.some.injEq] at hb
    exact ⟨tagged, rfl, hb.symm⟩

/-- Fixture: the trivially structured sidecar-document store used by the
concrete witnesses (no sidecar content is needed by them). -/
def constDocs : FsPath → Sidecar := fun _ => ⟨none⟩

/-- Fixture image: a raw file with a valid capture timestamp. -/
def wRaw : ImgInfo :=
  ⟨⟨"/d".toList, "a.NEF".toList⟩, none, ⟨2024, 1, 1, 10, 0, 0⟩, "M".toList⟩

/-- Fixture group list produced by `build_imgs_groups [wRaw]`. -/
def wGroups : List ImgGroup := [⟨[(ImgRole.Raw, wRaw)]⟩]

/-- C1: for every input accepted by the grouper, the group sequence produced by
`build_imgs_groups` is sorted by representative capture timestamp ascending
with ties broken by representative base path ascending (`GroupLe`), and a
completed `reorganize_images` run assigns the groups the contiguous sequence
positions 1..N in that order. -/
theorem C1_groups_sorted_indices_contiguous (imgs : List ImgInfo)
    (gs : List ImgGroup) (pfx : Str) (dryrun : Bool) (digits : Option Nat)
    (docs : FsPath → Sidecar)
    (hb : build_imgs_groups imgs = some gs)
    (hok : (reorganize_images gs pfx dryrun digits docs).ok = true) :
    List.Sorted GroupLe gs ∧
      (reorganize_images gs pfx dryrun digits docs).idxs = List.range' 1 gs.length := by
  constructor
  · obtain ⟨tagged, -, hgs⟩ := buildPerm_eq_some hb
    rw [hgs]
    exact List.sorted_insertionSort GroupLe _
  · exact processGroups_idxs docs pfx (digitsOf digits gs.length) dryrun 1 gs hok

/-- Witness for C1 at a concrete input. -/
theorem C1_witness :
    List.Sorted GroupLe wGroups ∧
      (reorganize_images wGroups [] false none constDocs).idxs
        = List.range' 1 wGroups.length :=
  C1_groups_sorted_indices_contiguous [wRaw] wGroups [] false none constDocs
    (by decide) (by decide)

/-! ### Shape lemmas for the renamer's effects -/

theorem rename_file_dry_path (src : FsPath) (index : Nat) (img : ImgInfo)
    (pfx : Str) (w : Nat) : (rename_file src index img pfx w true).path = src := rfl

theorem rename_file_dry_renames (src : FsPath) (index : Nat) (img : ImgInfo)
    (pfx : Str) (w : Nat) : (rename_file src index img pfx w true).renames = [] := by
  simp [rename_file]

theorem rename_file_prints_dryrun (src : FsPath) (index : Nat) (img : ImgInfo)
    (pfx : Str) (w : Nat) :
    (rename_file src index img pfx w true).prints
      = (rename_file src index img pfx w false).prints := rfl

/-- A sidecar document passes `rewrite_sidecar_file`'s structural checks iff it
has the `RDF` element, the `Description` element and the `xmpMM:DerivedFrom`
attribute. -/
def wellFormedSidecar (doc : Sidecar) : Bool :=
  match doc.rdf with
  | none => false
  | some r =>
    match r.desc with
    | none => false
    | some d => d.attrs.any fun kv => kv.1 = derivedFromKey

theorem processMember_idxs (docs : FsPath → Sidecar) (i : Nat) (pfx : Str)
    (w : Nat) (d : Bool) (m : ImgRole × ImgInfo) :
    (processMember docs i pfx w d m).idxs = [] := by
  unfold processMember
  cases m.2.sidecar_path with
  | none => rfl
  | some sp => simp only []; split <;> rfl

/-- On a structurally well-formed document, `rewrite_sidecar_file` succeeds,
patching the attribute and writing back exactly when not a dry run. -/
theorem rewrite_sidecar_wf {doc : Sidecar} (h : wellFormedSidecar doc = true)
    (sp ip : FsPath) (d : Bool) :
    ∃ doc', rewrite_sidecar_file doc sp ip d
      = .ok (doc', if d then [] else [sp]) := by
  obtain ⟨rdfo⟩ := doc
  cases rdfo with
  | none => simp [wellFormedSidecar] at h
  | some r =>
    obtain ⟨desco⟩ := r
    cases desco with
    | none => simp [wellFormedSidecar] at h
    | some dd =>
      have h' : (dd.attrs.any fun kv => kv.1 = derivedFromKey) = true := by
        simpa [wellFormedSidecar] using h
      exact ⟨⟨some ⟨some ⟨setAttr derivedFromKey (pathStr ip) dd.attrs⟩⟩⟩,
        by simp [rewrite_sidecar_file, h']⟩

/-- On a document missing one of the required structural pieces,
`rewrite_sidecar_file` fails — dry run or not. -/
theorem rewrite_sidecar_not_wf {doc : Sidecar} (h : wellFormedSidecar doc = false)
    (sp ip : FsPath) (d : Bool) :
    ∃ e, rewrite_sidecar_file doc sp ip d = .error e := by
  obtain ⟨rdfo⟩ := doc
  cases rdfo with
  | none => exact ⟨_, rfl⟩
  | some r =>
    obtain ⟨desco⟩ := r
    cases desco with
    | none => exact ⟨_, rfl⟩
    | some dd =>
      have h' : ¬ (dd.attrs.any fun kv => kv.1 = derivedFromKey) = true := by
        intro hc
        simp only [wellFormedSidecar] at h
        rw [hc] at h
        exact absurd h (by decide)
      exact ⟨"Can't find DerivedFrom attribute in Sidecar file".toList,
        by simp [rewrite_sidecar_file, h']⟩

theorem processMember_ok (docs : FsPath → Sidecar) (i : Nat) (pfx : Str)
    (w : Nat) (d : Bool) (m : ImgRole × ImgInfo) :
    (processMember docs i pfx w d m).ok
      = match m.2.sidecar_path with
        | none => true
        | some sp => wellFormedSidecar (docs sp) := by
  unfold processMember
  cases m.2.sidecar_path with
  | none => rfl
  | some sp =>
    cases hwf : wellFormedSidecar (docs sp) with
    | true =>
      obtain ⟨doc', heq⟩ := rewrite_sidecar_wf hwf
        (rename_file sp i m.2 pfx w d).path (rename_file m.2.path i m.2 pfx w d).path d
      simp [heq, hwf]
    | false =>
      obtain ⟨e, heq⟩ := rewrite_sidecar_not_wf hwf
        (rename_file sp i m.2 pfx w d).path (rename_file m.2.path i m.2 pfx w d).path d
      simp [heq, hwf]

theorem processMember_renames (docs : FsPath → Sidecar) (i : Nat) (pfx : Str)
    (w : Nat) (d : Bool) (m : ImgRole × ImgInfo) :
    (processMember docs i pfx w d m).renames
      = (rename_file m.2.path i m.2 pfx w d).renames
        ++ match m.2.sidecar_path with
           | none => []
           | some sp => (rename_file sp i m.2 pfx w d).renames := by
  unfold processMember
  cases m.2.sidecar_path with
  | none => simp
  | some sp =>
    cases hwf : wellFormedSidecar (docs sp) with
    | true =>
      obtain ⟨doc', heq⟩ := rewrite_sidecar_wf hwf
        (rename_file sp i m.2 pfx w d).path (rename_file m.2.path i m.2 pfx w d).path d
      simp [heq, hwf]
    | false =>
      obtain ⟨e, heq⟩ := rewrite_sidecar_not_wf hwf
        (rename_file sp i m.2 pfx w d).path (rename_file m.2.path i m.2 pfx w d).path d
      simp [heq, hwf]

theorem processMember_prints (docs : FsPath → Sidecar) (i : Nat) (pfx : Str)
    (w : Nat) (d : Bool) (m : ImgRole × ImgInfo) :
    (processMember docs i pfx w d m).prints
      = (rename_file m.2.path i m.2 pfx w d).prints
        ++ match m.2.sidecar_path with
           | none => []
           | some sp => (rename_file sp i m.2 pfx w d).prints := by
  unfold processMember
  cases m.2.sidecar_path with
  | none => simp
  | some sp =>
    cases hwf : wellFormedSidecar (docs sp) with
    | true =>
      obtain ⟨doc', heq⟩ := rewrite_sidecar_wf hwf
        (rename_file sp i m.2 pfx w d).path (rename_file m.2.path i m.2 pfx w d).path d
      simp [heq, hwf]
    | false =>
      obtain ⟨e, heq⟩ := rewrite_sidecar_not_wf hwf
        (rename_file sp i m.2 pfx w d).path (rename_file m.2.path i m.2 pfx w d).path d
      simp [heq, hwf]

theorem processMember_patches (docs : FsPath → Sidecar) (i : Nat) (pfx : Str)
    (w : Nat) (d : Bool) (m : ImgRole × ImgInfo) :
    (processMember docs i pfx w d m).patches
      = match m.2.sidecar_path with
        | none => []
        | some sp => [((rename_file sp i m.2 pfx w d).path,
                       (rename_file m.2.path i m.2 pfx w d).path)] := by
  unfold processMember
  cases m.2.sidecar_path with
  | none => rfl
  | some sp =>
    cases hwf : wellFormedSidecar (docs sp) with
    | true =>
      obtain ⟨doc', heq⟩ := rewrite_sidecar_wf hwf
        (rename_file sp i m.2 pfx w d).path (rename_file m.2.path i m.2 pfx w d).path d
      simp [heq, hwf]
    | false =>
      obtain ⟨e, heq⟩ := rewrite_sidecar_not_wf hwf
        (rename_file sp i m.2 pfx w d).path (rename_file m.2.path i m.2 pfx w d).path d
      simp [heq, hwf]

theorem processMember_writes (docs : FsPath → Sidecar) (i : Nat) (pfx : Str)
    (w : Nat) (d : Bool) (m : ImgRole × ImgInfo) :
    (processMember docs i pfx w d m).writes
      = match m.2.sidecar_path with
        | none => []
        | some sp =>
          if wellFormedSidecar (docs sp) = true ∧ d = false
            then [(rename_file sp i m.2 pfx w d).path] else [] := by
  unfold processMember
  cases m.2.sidecar_path with
  | none => rfl
  | some sp =>
    cases hwf : wellFormedSidecar (docs sp) with
    | true =>
      obtain ⟨doc', heq⟩ := rewrite_sidecar_wf hwf
        (rename_file sp i m.2 pfx w d).path (rename_file m.2.path i m.2 pfx w d).path d
      cases d <;> simp [heq, hwf]
    | false =>
      obtain ⟨e, heq⟩ := rewrite_sidecar_not_wf hwf
        (rename_file sp i m.2 pfx w d).path (rename_file m.2.path i m.2 pfx w d).path d
      simp [heq, hwf]

/-- Whether processing this member can fail: only a structurally malformed
sidecar document can make it fail, independently of index, prefix, width or
dry-run mode. -/
def memberOk (docs : FsPath → Sidecar) (m : ImgRole × ImgInfo) : Bool :=
  match m.2.sidecar_path with
  | none => true
  | some sp => wellFormedSidecar (docs sp)

theorem processMember_ok_eq_memberOk (docs : FsPath → Sidecar) (i : Nat)
    (pfx : Str) (w : Nat) (d : Bool) (m : ImgRole × ImgInfo) :
    (processMember docs i pfx w d m).ok = memberOk docs m := processMember_ok docs i pfx w d m

theorem processMember_dry_renames (docs : FsPath → Sidecar) (i : Nat) (pfx : Str)
    (w : Nat) (m : ImgRole × ImgInfo) :
    (processMember docs i pfx w true m).renames = [] := by
  rw [processMember_renames]
  cases m.2.sidecar_path <;> simp [rename_file_dry_renames]

theorem processMember_dry_writes (docs : FsPath → Sidecar) (i : Nat) (pfx : Str)
    (w : Nat) (m : ImgRole × ImgInfo) :
    (processMember docs i pfx w true m).writes = [] := by
  rw [processMember_writes]
  cases m.2.sidecar_path <;> simp

theorem processMember_prints_dryrun (docs : FsPath → Sidecar) (i : Nat) (pfx : Str)
    (w : Nat) (m : ImgRole × ImgInfo) :
    (processMember docs i pfx w true m).prints
      = (processMember docs i pfx w false m).prints := by
  rw [processMember_prints, processMember_prints]
  cases m.2.sidecar_path <;> simp [rename_file_prints_dryrun]

theorem processMember_dry_patches (docs : FsPath → Sidecar) (i : Nat) (pfx : Str)
    (w : Nat) (m : ImgRole × ImgInfo) :
    (processMember docs i pfx w true m).patches
      = match m.2.sidecar_path with
        | none => []
        | some sp => [(sp, m.2.path)] := by
  rw [processMember_patches]
  cases m.2.sidecar_path <;> simp [rename_file_dry_path]

theorem processMembers_ok (docs : FsPath → Sidecar) (i : Nat) (pfx : Str)
    (w : Nat) (d : Bool) (ms : List (ImgRole × ImgInfo)) :
    (processMembers docs i pfx w d ms).ok = ms.all (memberOk docs) := by
  induction ms with
  | nil => rfl
  | cons m ms ih =>
    simp only [processMembers]
    by_cases h : (processMember docs i pfx w d m).ok = true
    · rw [if_pos h]
      have hm : memberOk docs m = true := (processMember_ok_eq_memberOk docs i pfx w d m) ▸ h
      simp [ih, hm]
    · rw [if_neg h]
      have hm : memberOk docs m = false := by
        have := processMember_ok_eq_memberOk docs i pfx w d m
        rw [this] at h
        exact Bool.not_eq_true _ ▸ h
      rw [processMember_ok_eq_memberOk, hm]
      simp [hm]

theorem processMembers_dry_renames (docs : FsPath → Sidecar) (i : Nat) (pfx : Str)
    (w : Nat) (ms : List (ImgRole × ImgInfo)) :
    (processMembers docs i pfx w true ms).renames = [] := by
  induction ms with
  | nil => rfl
  | cons m ms ih =>
    simp only [processMembers]
    split
    · simp [ReorgOut.comb_renames, processMember_dry_renames, ih]
    · exact processMember_dry_renames docs i pfx w m

theorem processMembers_dry_writes (docs : FsPath → Sidecar) (i : Nat) (pfx : Str)
    (w : Nat) (ms : List (ImgRole × ImgInfo)) :
    (processMembers docs i pfx w true ms).writes = [] := by
  induction ms with
  | nil => rfl
  | cons m ms ih =>
    simp only [processMembers]
    split
    · simp [ReorgOut.comb_writes, processMember_dry_writes, ih]
    · exact processMember_dry_writes docs i pfx w m

theorem processMembers_prints_dryrun (docs : FsPath → Sidecar) (i : Nat) (pfx : Str)
    (w : Nat) (ms : List (ImgRole × ImgInfo)) :
    (processMembers docs i pfx w true ms).prints
      = (processMembers docs i pfx w false ms).prints := by
  induction ms with
  | nil => rfl
  | cons m ms ih =>
    simp only [processMembers]
    have hok : (processMember docs i pfx w true m).ok
        = (processMember docs i pfx w false m).ok := by
      rw [processMember_ok_eq_memberOk, processMember_ok_eq_memberOk]
    by_cases h : (processMember docs i pfx w true m).ok = true
    · rw [if_pos h, if_pos (hok ▸ h)]
      simp [ReorgOut.comb_prints, processMember_prints_dryrun, ih]
    · rw [if_neg h, if_neg (hok ▸ h)]
      exact processMember_prints_dryrun docs i pfx w m

theorem processMembers_ok_dryrun (docs : FsPath → Sidecar) (i : Nat) (pfx : Str)
    (w : Nat) (ms : List (ImgRole × ImgInfo)) :
    (processMembers docs i pfx w true ms).ok
      = (processMembers docs i pfx w false ms).ok := by
  rw [processMembers_ok, processMembers_ok]

theorem processMembers_dry_patches_mem (docs : FsPath → Sidecar) (i : Nat)
    (pfx : Str) (w : Nat) (ms : List (ImgRole × ImgInfo)) (pr : FsPath × FsPath)
    (hin : pr ∈ (processMembers docs i pfx w true ms).patches) :
    ∃ m ∈ ms, m.2.sidecar_path = some pr.1 ∧ pr.2 = m.2.path := by
  induction ms with
  | nil => simp [processMembers, ReorgOut.nil] at hin
  | cons m ms ih =>
    simp only [processMembers] at hin
    have hone : ∀ q, q ∈ (processMember docs i pfx w true m).patches →
        m.2.sidecar_path = some q.1 ∧ q.2 = m.2.path := by
      intro q hq
      rw [processMember_dry_patches] at hq
      cases hsp : m.2.sidecar_path with
      | none => rw [hsp] at hq; simp at hq
      | some sp =>
        rw [hsp] at hq
        simp at hq
        subst hq
        exact ⟨rfl, rfl⟩
    by_cases h : (processMember docs i pfx w true m).ok = true
    · rw [if_pos h] at hin
      rcases List.mem_append.mp hin with hin | hin
      · exact ⟨m, List.mem_cons_self m ms, hone pr hin⟩
      · obtain ⟨m', hm', hprop⟩ := ih hin
        exact ⟨m', List.mem_cons_of_mem m hm', hprop⟩
    · rw [if_neg h] at hin
      exact ⟨m, List.mem_cons_self m ms, hone pr hin⟩

theorem processGroups_dry_renames (docs : FsPath → Sidecar) (pfx : Str) (w : Nat) :
    ∀ (n : Nat) (gs : List ImgGroup),
    (processGroups docs pfx w true n gs).renames = [] := by
  intro n gs
  induction gs generalizing n with
  | nil => rfl
  | cons g gs ih =>
    simp only [processGroups]
    split
    · simp [ReorgOut.comb_renames, processMembers_dry_renames, ih]
    · exact processMembers_dry_renames docs n pfx w g.members

theorem processGroups_dry_writes (docs : FsPath → Sidecar) (pfx : Str) (w : Nat) :
    ∀ (n : Nat) (gs : List ImgGroup),
    (processGroups docs pfx w true n gs).writes = [] := by
  intro n gs
  induction gs generalizing n with
  | nil => rfl
  | cons g gs ih =>
    simp only [processGroups]
    split
    · simp [ReorgOut.comb_writes, processMembers_dry_writes, ih]
    · exact processMembers_dry_writes docs n pfx w g.members

theorem processGroups_prints_dryrun (docs : FsPath → Sidecar) (pfx : Str) (w : Nat) :
    ∀ (n : Nat) (gs : List ImgGroup),
    (processGroups docs pfx w true n gs).prints
      = (processGroups docs pfx w false n gs).prints := by
  intro n gs
  induction gs generalizing n with
  | nil => rfl
  | cons g gs ih =>
    simp only [processGroups]
    have hok : (processMembers docs n pfx w true g.members).ok
        = (processMembers docs n pfx w false g.members).ok :=
      processMembers_ok_dryrun docs n pfx w g.members
    by_cases h : (processMembers docs n pfx w true g.members).ok = true
    · rw [if_pos h, if_pos (hok ▸ h)]
      simp [ReorgOut.comb_prints, processMembers_prints_dryrun, ih]
    · rw [if_neg h, if_neg (hok ▸ h)]
      exact processMembers_prints_dryrun docs n pfx w g.members

theorem processGroups_ok_dryrun (docs : FsPath → Sidecar) (pfx : Str) (w : Nat) :
    ∀ (n : Nat) (gs : List ImgGroup),
    (processGroups docs pfx w true n gs).ok
      = (processGroups docs pfx w false n gs).ok := by
  intro n gs
  induction gs generalizing n with
  | nil => rfl
  | cons g gs ih =>
    simp only [processGroups]
    have hok : (processMembers docs n pfx w true g.members).ok
        = (processMembers docs n pfx w false g.members).ok :=
      processMembers_ok_dryrun docs n pfx w g.members
    by_cases h : (processMembers docs n pfx w true g.members).ok = true
    · rw [if_pos h, if_pos (hok ▸ h)]
      simp [ReorgOut.comb_ok, ih]
    · rw [if_neg h, if_neg (hok ▸ h)]
      exact hok

theorem processGroups_dry_patches_mem (docs : FsPath → Sidecar) (pfx : Str)
    (w : Nat) : ∀ (n : Nat) (gs : List ImgGroup) (pr : FsPath × FsPath),
    pr ∈ (processGroups docs pfx w true n gs).patches →
    ∃ g ∈ gs, ∃ m ∈ g.members, m.2.sidecar_path = some pr.1 ∧ pr.2 = m.2.path := by
  intro n gs
  induction gs generalizing n with
  | nil => intro pr hin; simp [processGroups, ReorgOut.nil] at hin
  | cons g gs ih =>
    intro pr hin
    simp only [processGroups] at hin
    by_cases h : (processMembers docs n pfx w true g.members).ok = true
    · rw [if_pos h] at hin
      rcases List.mem_append.mp hin with hin | hin
      · obtain ⟨m, hm, hprop⟩ := processMembers_dry_patches_mem docs n pfx w g.members pr hin
        exact ⟨g, List.mem_cons_self g gs, m, hm, hprop⟩
      · obtain ⟨g', hg', hrest⟩ := ih (n + 1) pr hin
        exact ⟨g', List.mem_cons_of_mem g hg', hrest⟩
    · rw [if_neg h] at hin
      obtain ⟨m, hm, hprop⟩ := processMembers_dry_patches_mem docs n pfx w g.members pr hin
      exact ⟨g, List.mem_cons_self g gs, m, hm, hprop⟩

/-- Fixture image with a sidecar, and a well-formed sidecar store. -/
def wRawSc : ImgInfo :=
  ⟨⟨"/d".toList, "a.NEF".toList⟩, some ⟨"/d".toList, "a.NEF.xmp".toList⟩,
   ⟨2024, 1, 1, 10, 0, 0⟩, "M".toList⟩

/-- Fixture sidecar store whose every document carries the cross-reference
attribute. -/
def wDocs : FsPath → Sidecar :=
  fun _ => ⟨some ⟨some ⟨[(derivedFromKey, "orig".toList)]⟩⟩⟩

/-- Fixture group list with a sidecar-carrying member. -/
def wGroupsSc : List ImgGroup := [⟨[(ImgRole.Raw, wRawSc)]⟩]

/-- C5: with `dryrun` set, `reorganize_images` performs no filesystem renames
and writes back no sidecar (directory contents untouched), still prints
exactly the lines the real run would print, `rename_file` returns the original
source path (not the computed target), and every sidecar-patch invocation of
the dry run receives original paths: the member's recorded sidecar path and
the member's original primary path. -/
theorem C5_dry_run_no_mutation (gs : List ImgGroup) (pfx : Str)
    (digits : Option Nat) (docs : FsPath → Sidecar) (src : FsPath) (index : Nat)
    (img : ImgInfo) (w : Nat) :
    (reorganize_images gs pfx true digits docs).renames = []
    ∧ (reorganize_images gs pfx true digits docs).writes = []
    ∧ (reorganize_images gs pfx true digits docs).prints
        = (reorganize_images gs pfx false digits docs).prints
    ∧ (rename_file src index img pfx w true).path = src
    ∧ (rename_file src index img pfx w true).renames = []
    ∧ ∀ pr ∈ (reorganize_images gs pfx true digits docs).patches,
        ∃ g ∈ gs, ∃ m ∈ g.members, m.2.sidecar_path = some pr.1 ∧ pr.2 = m.2.path :=
  ⟨processGroups_dry_renames docs pfx _ 1 gs,
   processGroups_dry_writes docs pfx _ 1 gs,
   processGroups_prints_dryrun docs pfx _ 1 gs,
   rename_file_dry_path src index img pfx w,
   rename_file_dry_renames src index img pfx w,
   fun pr hin => processGroups_dry_patches_mem docs pfx _ 1 gs pr hin⟩

/-- Witness for C5 at a concrete input (one group whose member carries a
sidecar, so the patch-argument clause is exercised). -/
theorem C5_witness :
    (reorganize_images wGroupsSc [] true none wDocs).renames = []
    ∧ (reorganize_images wGroupsSc [] true none wDocs).writes = []
    ∧ (reorganize_images wGroupsSc [] true none wDocs).prints
        = (reorganize_images wGroupsSc [] false none wDocs).prints
    ∧ (rename_file wRawSc.path 1 wRawSc [] 1 true).path = wRawSc.path
    ∧ (rename_file wRawSc.path 1 wRawSc [] 1 true).renames = []
    ∧ ∀ pr ∈ (reorganize_images wGroupsSc [] true none wDocs).patches,
        ∃ g ∈ wGroupsSc, ∃ m ∈ g.members,
          m.2.sidecar_path = some pr.1 ∧ pr.2 = m.2.path :=
  C5_dry_run_no_mutation wGroupsSc [] none wDocs wRawSc.path 1 wRawSc 1

/-- C10: `rewrite_sidecar_file` behaves identically under `dryrun` up to the
final serialization: it returns the same structural error (missing `RDF`,
missing `Description`, or missing `xmpMM:DerivedFrom`) as the real run and the
same patched document on success, and only the file write is suppressed;
consequently a dry `reorganize_images` run aborts (ok = false) exactly when
the real run would. -/
theorem C10_dry_run_structural_errors (doc : Sidecar) (sp ip : FsPath)
    (gs : List ImgGroup) (pfx : Str) (digits : Option Nat)
    (docs : FsPath → Sidecar) :
    (rewrite_sidecar_file doc sp ip true
       = match rewrite_sidecar_file doc sp ip false with
         | .ok (doc', _) => .ok (doc', [])
         | .error e => .error e)
    ∧ (reorganize_images gs pfx true digits docs).ok
        = (reorganize_images gs pfx false digits docs).ok := by
  constructor
  · obtain ⟨rdfo⟩ := doc
    cases rdfo with
    | none => rfl
    | some r =>
      obtain ⟨desco⟩ := r
      cases desco with
      | none => rfl
      | some dd =>
        by_cases h : (dd.attrs.any fun kv => kv.1 = derivedFromKey) = true
        · simp [rewrite_sidecar_file, h]
        · simp [rewrite_sidecar_file, h]
  · exact processGroups_ok_dryrun docs pfx _ 1 gs

/-! ### Scanner lemmas -/

/-- A missing metadata record or a missing timestamp tag makes `read_img`
return the error its caller handles (the two `?` operators). -/
theorem read_img_err_of_skip {dirPath : Str} {dir : List DirEntry} {e : DirEntry}
    (h : e.meta = none ∨ ∃ md, e.meta = some md ∧ md.dateTimeOriginal = none) :
    read_img dirPath dir e = .err := by
  rcases h with h | ⟨md, hm, hd⟩
  · simp [read_img, h]
  · simp [read_img, hm, hd]

/-- A present timestamp tag whose string does not parse makes `read_img`
panic (either at the model-tag `unwrap` or at the parse `unwrap`). -/
theorem read_img_panic_of_unparseable {dirPath : Str} {dir : List DirEntry}
    {e : DirEntry} {md : ExifData} {ds : Str} (hm : e.meta = some md)
    (hd : md.dateTimeOriginal = some ds) (hp : parseExifDate ds = none) :
    read_img dirPath dir e = .panicked := by
  simp only [read_img, hm, hd]
  cases hmod : md.model with
  | none => rfl
  | some m => simp [hp]

/-- A present timestamp tag with an absent model tag makes `read_img` panic
(the `unwrap` on `get_tag_string(model_tag)`). -/
theorem read_img_panic_of_no_model {dirPath : Str} {dir : List DirEntry}
    {e : DirEntry} {md : ExifData} {ds : Str} (hm : e.meta = some md)
    (hd : md.dateTimeOriginal = some ds) (hmod : md.model = none) :
    read_img dirPath dir e = .panicked := by
  simp only [read_img, hm, hd, hmod]

/-- A panic in any worker aborts the whole fan-out. -/
theorem scanEntries_panic {dirPath : Str} {dir : List DirEntry} {e : DirEntry}
    (h : read_img dirPath dir e = .panicked) (pre post : List DirEntry) :
    scanEntries dirPath dir (pre ++ e :: post) = none := by
  induction pre with
  | nil => simp [scanEntries, h]
  | cons d pre ih =>
    cases h2 : read_img dirPath dir d with
    | panicked => simp [scanEntries, h2]
    | err => simp [scanEntries, h2, ih]
    | ok img => simp [scanEntries, h2, ih]

/-- The fan-out is compositional over list concatenation: the images and the
warnings concatenate, and a panic anywhere aborts everything. -/
theorem scanEntries_append (dirPath : Str) (dir : List DirEntry)
    (xs ys : List DirEntry) :
    scanEntries dirPath dir (xs ++ ys)
      = match scanEntries dirPath dir xs, scanEntries dirPath dir ys with
        | some (i1, w1), some (i2, w2) => some (i1 ++ i2, w1 ++ w2)
        | _, _ => none := by
  induction xs with
  | nil =>
    cases hys : scanEntries dirPath dir ys with
    | none => simp [scanEntries, hys]
    | some r => obtain ⟨i2, w2⟩ := r; simp [scanEntries, hys]
  | cons x xs ih =>
    cases h2 : read_img dirPath dir x with
    | panicked => simp [scanEntries, h2]
    | err =>
      cases hxs : scanEntries dirPath dir xs with
      | none => simp [scanEntries, h2, ih, hxs]
      | some r1 =>
        obtain ⟨i1, w1⟩ := r1
        cases hys : scanEntries dirPath dir ys with
        | none => simp [scanEntries, h2, ih, hxs, hys]
        | some r2 =>
          obtain ⟨i2, w2⟩ := r2
          simp [scanEntries, h2, ih, hxs, hys]
    | ok img =>
      cases hxs : scanEntries dirPath dir xs with
      | none => simp [scanEntries, h2, ih, hxs]
      | some r1 =>
        obtain ⟨i1, w1⟩ := r1
        cases hys : scanEntries dirPath dir ys with
        | none => simp [scanEntries, h2, ih, hxs, hys]
        | some r2 =>
          obtain ⟨i2, w2⟩ := r2
          simp [scanEntries, h2, ih, hxs, hys]

/-- Fixture entry whose timestamp tag is absent (skippable error). -/
def eSkip : DirEntry := ⟨"m.NEF".toList, true, false, some ⟨none, some "M".toList⟩⟩

/-- Fixture entry whose timestamp tag is present but unparseable. -/
def eBad : DirEntry :=
  ⟨"b.NEF".toList, true, false, some ⟨some "not a date".toList, some "M".toList⟩⟩

/-- Counterexample to C2 as stated: a candidate file whose timestamp string is
present but unparseable does not get skipped — `read_img`'s
`parse_from_str(..).unwrap()` panics and the whole scan aborts (`none`),
instead of returning the other files with a warning. -/
theorem C2_counterexample : scan_for_images "/d".toList [eBad] = none := by decide

/-- C2 amended: a *missing* timestamp tag (or an unreadable metadata record)
makes the scan skip exactly that file — same surviving images, exactly one
extra warning — and never aborts; but a *present, unparseable* timestamp
string panics inside `read_img` and aborts the whole scan. -/
theorem C2_missing_skips_unparseable_aborts (dirPath : Str) (dir : List DirEntry)
    (pre post pre2 post2 : List DirEntry) (eskip ebad : DirEntry) (md : ExifData)
    (ds : Str)
    (hskip : eskip.meta = none ∨ ∃ md', eskip.meta = some md' ∧ md'.dateTimeOriginal = none)
    (hm : ebad.meta = some md) (hd : md.dateTimeOriginal = some ds)
    (hp : parseExifDate ds = none) :
    scan_for_images dirPath dir = scanEntries dirPath dir (dir.filter keepEntry)
    ∧ (scanEntries dirPath dir (pre ++ eskip :: post)).map Prod.fst
        = (scanEntries dirPath dir (pre ++ post)).map Prod.fst
    ∧ (scanEntries dirPath dir (pre ++ eskip :: post)).map (fun r => r.2.length)
        = (scanEntries dirPath dir (pre ++ post)).map (fun r => r.2.length + 1)
    ∧ scanEntries dirPath dir (pre2 ++ ebad :: post2) = none := by
  have herr := @read_img_err_of_skip dirPath dir eskip hskip
  have h1 := scanEntries_append dirPath dir pre (eskip :: post)
  have h2 := scanEntries_append dirPath dir pre post
  have he : scanEntries dirPath dir (eskip :: post)
      = match scanEntries dirPath dir post with
        | none => none
        | some (i, w) => some (i, skipWarning dirPath eskip :: w) := by
    simp [scanEntries, herr]
  refine ⟨rfl, ?_, ?_, scanEntries_panic (read_img_panic_of_unparseable hm hd hp) pre2 post2⟩
  · rw [h1, he, h2]
    cases hpre : scanEntries dirPath dir pre with
    | none => simp
    | some r1 =>
      obtain ⟨i1, w1⟩ := r1
      cases hpost : scanEntries dirPath dir post with
      | none => simp
      | some r2 => obtain ⟨i2, w2⟩ := r2; simp
  · rw [h1, he, h2]
    cases hpre : scanEntries dirPath dir pre with
    | none => simp
    | some r1 =>
      obtain ⟨i1, w1⟩ := r1
      cases hpost : scanEntries dirPath dir post with
      | none => simp
      | some r2 =>
        obtain ⟨i2, w2⟩ := r2
        simp [List.length_append]
        omega

/-- Witness for C2 (amended) at concrete inputs. -/
theorem C2_witness :
    scan_for_images "/d".toList [] = scanEntries "/d".toList [] ([].filter keepEntry)
    ∧ (scanEntries "/d".toList [] ([] ++ eSkip :: [])).map Prod.fst
        = (scanEntries "/d".toList [] ([] ++ [])).map Prod.fst
    ∧ (scanEntries "/d".toList [] ([] ++ eSkip :: [])).map (fun r => r.2.length)
        = (scanEntries "/d".toList [] ([] ++ [])).map (fun r => r.2.length + 1)
    ∧ scanEntries "/d".toList [] ([] ++ eBad :: []) = none :=
  C2_missing_skips_unparseable_aborts "/d".toList [] [] [] [] [] eSkip eBad
    ⟨some "not a date".toList, some "M".toList⟩ "not a date".toList
    (Or.inr ⟨⟨none, some "M".toList⟩, rfl, rfl⟩) rfl rfl (by decide)

/-- Fixture entry with an extension (`png`) that maps to no `ImgRole` but with
perfectly readable metadata. -/
def pngEntry : DirEntry :=
  ⟨"shot.png".toList, true, false,
   some ⟨some "2024:01:01 12:00:00".toList, some "M".toList⟩⟩

/-- The `ImgInfo` the scanner produces for `pngEntry`. -/
def pngImg : ImgInfo :=
  ⟨⟨"/d".toList, "shot.png".toList⟩, none, ⟨2024, 1, 1, 12, 0, 0⟩, "M".toList⟩

theorem tagImgs_none {imgs : List ImgInfo} {i : ImgInfo} (hmem : i ∈ imgs)
    (hrole : i.role = none) : tagImgs imgs = none := by
  induction imgs with
  | nil => cases hmem
  | cons x xs ih =>
    rcases List.mem_cons.mp hmem with rfl | hmem'
    · simp [tagImgs, hrole]
    · cases hx : x.role with
      | none => simp [tagImgs, hx]
      | some r => simp [tagImgs, hx, ih hmem']

/-- Counterexample to C3 as stated: a file with an unrecognized extension but
readable metadata is *not* excluded from the scan result (the scanner's filter
never consults roles), and when it reaches the grouper, `build_imgs_groups`
panics (`img.role().unwrap()`), returning no groups at all — it does not
silently drop the file. -/
theorem C3_counterexample :
    scan_for_images "/d".toList [pngEntry] = some ([pngImg], [])
    ∧ pngImg.role = none
    ∧ build_imgs_groups [pngImg] = none := by decide

/-- C3 amended: the scanner admits any candidate whose metadata reads
successfully, regardless of whether its extension maps to a role; and
`build_imgs_groups` fails (panic) whenever any image with an unrecognized role
reaches it, rather than silently dropping that image. -/
theorem C3_unrecognized_role_panics (dirPath : Str) (e : DirEntry) (img : ImgInfo)
    (imgs : List ImgInfo) (i : ImgInfo)
    (hkeep : keepEntry e = true) (hread : read_img dirPath [e] e = .ok img)
    (hmem : i ∈ imgs) (hrole : i.role = none) :
    scan_for_images dirPath [e] = some ([img], [])
    ∧ build_imgs_groups imgs = none := by
  constructor
  · unfold scan_for_images
    rw [show [e].filter keepEntry = [e] by simp [hkeep]]
    simp [scanEntries, hread]
  · unfold build_imgs_groups buildPerm
    rw [tagImgs_none hmem hrole]

/-- Witness for C3 (amended) at the concrete `png` input. -/
theorem C3_witness :
    scan_for_images "/d".toList [pngEntry] = some ([pngImg], [])
    ∧ build_imgs_groups [pngImg] = none :=
  C3_unrecognized_role_panics "/d".toList pngEntry pngImg [pngImg] pngImg
    (by decide) (by decide) (List.mem_cons_self pngImg []) (by decide)

/-- Fixture entry whose timestamp is valid but whose model tag is absent. -/
def eNoModel : DirEntry :=
  ⟨"c.NEF".toList, true, false, some ⟨some "2024:01:01 12:00:00".toList, none⟩⟩

/-- Counterexample to C8 as stated: a candidate with a valid timestamp and an
absent camera-model tag is not recorded with an empty model string — the
`get_tag_string(model_tag).unwrap()` in `read_img` panics on the
`Err(NoValue)` that rexiv2 returns for an absent tag, aborting the scan. -/
theorem C8_counterexample : scan_for_images "/d".toList [eNoModel] = none := by decide

/-- C8 amended: for a candidate whose timestamp tag is present, an absent
model tag makes `read_img` panic and the panic aborts the whole scan;
model-tag absence is treated as fatal, not tolerated as an empty string. -/
theorem C8_no_model_panics (dirPath : Str) (dir : List DirEntry)
    (pre post : List DirEntry) (e : DirEntry) (md : ExifData) (ds : Str)
    (hm : e.meta = some md) (hd : md.dateTimeOriginal = some ds)
    (hmod : md.model = none) :
    read_img dirPath dir e = .panicked
    ∧ scanEntries dirPath dir (pre ++ e :: post) = none := by
  have h := @read_img_panic_of_no_model dirPath dir e md ds hm hd hmod
  exact ⟨h, scanEntries_panic h pre post⟩

/-- Witness for C8 (amended) at a concrete input. -/
theorem C8_witness :
    read_img "/d".toList [] eNoModel = .panicked
    ∧ scanEntries "/d".toList [] ([] ++ eNoModel :: []) = none :=
  C8_no_model_panics "/d".toList [] [] [] eNoModel
    ⟨some "2024:01:01 12:00:00".toList, none⟩ "2024:01:01 12:00:00".toList
    rfl rfl rfl

/-! ### Sidecar renaming and patching (C4) -/

theorem joinSep_append_single (sep : Char) {xs : List Str} (h : xs ≠ []) (t : Str) :
    joinSep sep (xs ++ [t]) = joinSep sep xs ++ sep :: t := by
  induction xs with
  | nil => exact absurd rfl h
  | cons x xs ih =>
    cases xs with
    | nil => simp [joinSep]
    | cons y ys =>
      have h2 := ih (by simp)
      simp only [List.cons_append, joinSep, List.append_eq] at h2 ⊢
      rw [h2]
      simp

/-- A name with an extension decomposes as `stem ++ "." ++ ext` with a
dot-free extension. -/
theorem extOf_decomp {name ext : Str} (h : extOf name = some ext) :
    ∃ s, name = s ++ '.' :: ext ∧ '.' ∉ ext := by
  unfold extOf at h
  by_cases hl : 2 ≤ (splitOnChar '.' name).length
  · rw [if_pos hl] at h
    have hne := splitOnChar_ne_nil '.' name
    have hlast : (splitOnChar '.' name).getLast hne = ext :=
      (List.getLast?_eq_getLast _ hne ▸ h : _) |> Option.some.inj
    have hdecomp : (splitOnChar '.' name).dropLast ++ [ext] = splitOnChar '.' name := by
      rw [← hlast]
      exact List.dropLast_append_getLast hne
    have hdl_ne : (splitOnChar '.' name).dropLast ≠ [] := by
      intro hnil
      rw [hnil] at hdecomp
      rw [← hdecomp] at hl
      simp at hl
    refine ⟨joinSep '.' (splitOnChar '.' name).dropLast, ?_, ?_⟩
    · conv_lhs => rw [← joinSep_splitOnChar '.' name, ← hdecomp]
      exact joinSep_append_single '.' hdl_ne ext
    · exact splitOnChar_parts_not_mem '.' name ext
        (hdecomp ▸ List.mem_append_right _ (List.mem_cons_self ext []))
  · rw [if_neg hl] at h
    cases h

/-- A recognized role forces an extension whose lowercase form differs from
`xmp`. -/
theorem role_ext {img : ImgInfo} (h : (img.role).isSome = true) :
    ∃ ext, extOf img.path.name = some ext ∧ lowerStr ext ≠ "xmp".toList := by
  unfold ImgInfo.role at h
  cases he : extOf img.path.name with
  | none => rw [he] at h; simp at h
  | some e =>
    rw [he] at h
    refine ⟨e, rfl, ?_⟩
    by_cases h1 : lowerStr e = "nef".toList
    · rw [h1]; decide
    by_cases h2 : lowerStr e = "raf".toList
    · rw [h2]; decide
    by_cases h3 : lowerStr e = "jpg".toList
    · rw [h3]; decide
    simp only [h1, h2, h3, if_false] at h
    simp at h

/-- Fixture: the image of the worked example, `/photos/DSC001.NEF` with
sidecar `/photos/DSC001.NEF.xmp`. -/
def scImg : ImgInfo :=
  ⟨⟨"/photos".toList, "DSC001.NEF".toList⟩,
   some ⟨"/photos".toList, "DSC001.NEF.xmp".toList⟩,
   ⟨2024, 1, 1, 12, 0, 0⟩, "Model".toList⟩

/-- Fixture sidecar document whose cross-reference initially holds the old
name. -/
def scDoc : Sidecar := ⟨some ⟨some ⟨[(derivedFromKey, "DSC001.NEF".toList)]⟩⟩⟩

instance {e a : Type} [DecidableEq e] [DecidableEq a] : DecidableEq (Except e a) :=
  fun x y =>
    match x, y with
    | .ok v, .ok w => decidable_of_iff (v = w) (by simp)
    | .error v, .error w => decidable_of_iff (v = w) (by simp)
    | .ok _, .error _ => isFalse (by simp)
    | .error _, .ok _ => isFalse (by simp)

/-- Counterexample to C4 as stated: in the worked example (index 7, width 4),
the renamed sidecar does keep the `.NEF.xmp` suffix, but the rewritten
`xmpMM:DerivedFrom` value is the *full path string*
`/photos/0007 2024-01-01 12-00-00 Model.NEF` of the renamed primary, which is
not the literal file name `0007 2024-01-01 12-00-00 Model.NEF` the claim
asserts. -/
theorem C4_counterexample :
    (rename_file ⟨"/photos".toList, "DSC001.NEF.xmp".toList⟩ 7 scImg [] 4 false).path
      = ⟨"/photos".toList, "0007 2024-01-01 12-00-00 Model.NEF.xmp".toList⟩
    ∧ rewrite_sidecar_file scDoc
        (rename_file ⟨"/photos".toList, "DSC001.NEF.xmp".toList⟩ 7 scImg [] 4 false).path
        (rename_file scImg.path 7 scImg [] 4 false).path false
      = .ok (⟨some ⟨some ⟨[(derivedFromKey,
            "/photos/0007 2024-01-01 12-00-00 Model.NEF".toList)]⟩⟩⟩,
          [⟨"/photos".toList, "0007 2024-01-01 12-00-00 Model.NEF.xmp".toList⟩])
    ∧ "/photos/0007 2024-01-01 12-00-00 Model.NEF".toList
        ≠ "0007 2024-01-01 12-00-00 Model.NEF".toList := by decide

/-- C4 amended: for every group member with a recognized role and a sidecar
named `<primary file name>.xmp`, the sidecar's new name preserves the last two
dot-separated components of its original name — it equals the renamed
primary's name (which keeps the original extension) plus `.xmp` — and the
sidecar's `xmpMM:DerivedFrom` attribute is rewritten to the string form of the
renamed primary's full path (not its bare file name). -/
theorem C4_sidecar_suffix_and_attr (index : Nat) (img : ImgInfo) (pfx : Str)
    (w : Nat) (sp : FsPath) (attrs0 : List (Str × Str)) (ext : Str)
    (hrole : (img.role).isSome = true)
    (hsp : img.sidecar_path = some sp)
    (hname : sp.name = img.path.name ++ ".xmp".toList)
    (hext : extOf img.path.name = some ext)
    (hattr : (attrs0.any fun kv => kv.1 = derivedFromKey) = true) :
    (rename_file sp index img pfx w false).path.name
      = (rename_file img.path index img pfx w false).path.name ++ ".xmp".toList
    ∧ (rename_file sp index img pfx w false).path.name
      = targetStem index img pfx w ++ '.' :: (ext ++ '.' :: "xmp".toList)
    ∧ rewrite_sidecar_file ⟨some ⟨some ⟨attrs0⟩⟩⟩
        (rename_file sp index img pfx w false).path
        (rename_file img.path index img pfx w false).path false
      = .ok (⟨some ⟨some ⟨setAttr derivedFromKey
            (pathStr (rename_file img.path index img pfx w false).path) attrs0⟩⟩⟩,
          [(rename_file sp index img pfx w false).path]) := by
  obtain ⟨ext', hext', hxmp'⟩ := role_ext hrole
  have hee : ext' = ext := Option.some.inj (hext'.symm.trans hext)
  have hxmp : lowerStr ext ≠ "xmp".toList := hee ▸ hxmp'
  obtain ⟨s, hdec, hdot⟩ := extOf_decomp hext
  have hxl : ".xmp".toList = '.' :: "xmp".toList := rfl
  have hr1 : (rename_file img.path index img pfx w false).path.name
      = targetStem index img pfx w ++ '.' :: ext := by
    show targetFileName index img pfx w img.path.name = _
    rw [hdec]
    exact targetFileName_plain hdot hxmp
  have hr2 : (rename_file sp index img pfx w false).path.name
      = targetStem index img pfx w ++ '.' :: (ext ++ '.' :: "xmp".toList) := by
    show targetFileName index img pfx w sp.name = _
    rw [hname, hdec, hxl]
    have h := @targetFileName_xmp index img pfx w s ext ("xmp".toList) hdot
      (by decide) (by decide)
    simp only [List.cons_append, List.append_assoc] at h ⊢
    exact h
  refine ⟨?_, hr2, ?_⟩
  · rw [hr1, hr2]
    simp
  · simp [rewrite_sidecar_file, hattr]

/-- Witness for C4 (amended) at the worked example. -/
theorem C4_witness :
    (rename_file ⟨"/photos".toList, "DSC001.NEF.xmp".toList⟩ 7 scImg [] 4 false).path.name
      = (rename_file scImg.path 7 scImg [] 4 false).path.name ++ ".xmp".toList
    ∧ (rename_file ⟨"/photos".toList, "DSC001.NEF.xmp".toList⟩ 7 scImg [] 4 false).path.name
      = targetStem 7 scImg [] 4 ++ '.' :: ("NEF".toList ++ '.' :: "xmp".toList)
    ∧ rewrite_sidecar_file ⟨some ⟨some ⟨[(derivedFromKey, "DSC001.NEF".toList)]⟩⟩⟩
        (rename_file ⟨"/photos".toList, "DSC001.NEF.xmp".toList⟩ 7 scImg [] 4 false).path
        (rename_file scImg.path 7 scImg [] 4 false).path false
      = .ok (⟨some ⟨some ⟨setAttr derivedFromKey
            (pathStr (rename_file scImg.path 7 scImg [] 4 false).path)
            [(derivedFromKey, "DSC001.NEF".toList)]⟩⟩⟩,
          [(rename_file ⟨"/photos".toList, "DSC001.NEF.xmp".toList⟩ 7 scImg [] 4 false).path]) :=
  C4_sidecar_suffix_and_attr 7 scImg [] 4 ⟨"/photos".toList, "DSC001.NEF.xmp".toList⟩
    [(derivedFromKey, "DSC001.NEF".toList)] "NEF".toList
    (by decide) rfl (by decide) (by decide) (by decide)

/-! ### Invariants of the grouping pass -/

theorem insertMember_ne_nil (r : ImgRole) (i : ImgInfo)
    (ms : List (ImgRole × ImgInfo)) : insertMember r i ms ≠ [] := by
  cases ms with
  | nil => simp [insertMember]
  | cons m ms => unfold insertMember; split <;> simp

theorem insertMember_mem {r : ImgRole} {i : ImgInfo}
    {ms : List (ImgRole × ImgInfo)} {x : ImgRole × ImgInfo}
    (h : x ∈ insertMember r i ms) : x = (r, i) ∨ x ∈ ms := by
  induction ms with
  | nil => simp [insertMember] at h; exact Or.inl h
  | cons m ms ih =>
    unfold insertMember at h
    by_cases hm : m.1 = r
    · rw [if_pos hm] at h
      rcases List.mem_cons.mp h with rfl | h
      · exact Or.inl rfl
      · exact Or.inr (List.mem_cons_of_mem m h)
    · rw [if_neg hm] at h
      rcases List.mem_cons.mp h with rfl | h
      · exact Or.inr (List.mem_cons_self x ms)
      · rcases ih h with h | h
        · exact Or.inl h
        · exact Or.inr (List.mem_cons_of_mem m h)

theorem insertMember_roles_nodup {r : ImgRole} {i : ImgInfo}
    {ms : List (ImgRole × ImgInfo)} (h : (ms.map Prod.fst).Nodup) :
    ((insertMember r i ms).map Prod.fst).Nodup := by
  induction ms with
  | nil => simp [insertMember]
  | cons m ms ih =>
    simp only [List.map_cons, List.nodup_cons] at h
    unfold insertMember
    by_cases hm : m.1 = r
    · rw [if_pos hm]
      simp only [List.map_cons, List.nodup_cons]
      exact ⟨hm ▸ h.1, h.2⟩
    · rw [if_neg hm]
      simp only [List.map_cons, List.nodup_cons]
      refine ⟨?_, ih h.2⟩
      intro hmem
      rcases List.mem_map.mp hmem with ⟨x, hx, hfst⟩
      rcases insertMember_mem hx with rfl | hx
      · exact hm hfst.symm
      · exact h.1 (List.mem_map.mpr ⟨x, hx, hfst⟩)

/-- When the role is not yet present, `insertMember` appends at the end. -/
theorem insertMember_fresh {r : ImgRole} {i : ImgInfo}
    {ms : List (ImgRole × ImgInfo)} (h : r ∉ ms.map Prod.fst) :
    insertMember r i ms = ms ++ [(r, i)] := by
  induction ms with
  | nil => rfl
  | cons m ms ih =>
    simp only [List.map_cons, List.mem_cons] at h
    push_neg at h
    unfold insertMember
    rw [if_neg (fun e => h.1 e.symm)]
    rw [ih h.2]
    rfl

/-- `addToGroups` on a fresh key appends a new singleton group at the end. -/
theorem addToGroups_fresh {acc : List (Str × ImgGroup)} {ri : ImgRole × ImgInfo}
    (h : ri.2.base_path ∉ acc.map Prod.fst) :
    addToGroups acc ri = acc ++ [(ri.2.base_path, ⟨[ri]⟩)] := by
  induction acc with
  | nil => rfl
  | cons kg acc ih =>
    simp only [List.map_cons, List.mem_cons] at h
    push_neg at h
    unfold addToGroups
    rw [if_neg (fun e => h.1 e.symm)]
    rw [ih h.2]
    rfl

/-- `addToGroups` on the key of the last group updates that group in place. -/
theorem addToGroups_last {acc : List (Str × ImgGroup)} {k : Str} {g : ImgGroup}
    {ri : ImgRole × ImgInfo} (hk : ri.2.base_path = k)
    (h : k ∉ acc.map Prod.fst) :
    addToGroups (acc ++ [(k, g)]) ri
      = acc ++ [(k, ⟨insertMember ri.1 ri.2 g.members⟩)] := by
  induction acc with
  | nil => simp [addToGroups, hk]
  | cons kg acc ih =>
    simp only [List.map_cons, List.mem_cons] at h
    push_neg at h
    simp only [List.cons_append, addToGroups, List.append_eq]
    rw [if_neg (fun e => h.1 (e.trans hk).symm)]
    rw [ih h.2]

/-- Structural invariant of the grouping accumulator: every stored group is
non-empty, each role occurs at most once among its members, and each member
carries the group's key as its base path and stems from the tagged input. -/
def GroupsWF (tagged : List (ImgRole × ImgInfo)) (acc : List (Str × ImgGroup)) : Prop :=
  ∀ kg ∈ acc, kg.2.members ≠ []
    ∧ (kg.2.members.map Prod.fst).Nodup
    ∧ ∀ m ∈ kg.2.members, m.2.base_path = kg.1 ∧ m ∈ tagged

theorem addToGroups_wf {tagged : List (ImgRole × ImgInfo)}
    {acc : List (Str × ImgGroup)} {ri : ImgRole × ImgInfo}
    (hri : ri ∈ tagged) (hwf : GroupsWF tagged acc) :
    GroupsWF tagged (addToGroups acc ri) := by
  induction acc with
  | nil =>
    intro kg hkg
    simp only [addToGroups, List.mem_singleton] at hkg
    subst hkg
    refine ⟨by simp, by simp, ?_⟩
    intro m hm
    simp only [List.mem_singleton] at hm
    subst hm
    exact ⟨rfl, hri⟩
  | cons kg0 acc ih =>
    have hwf0 := hwf kg0 (List.mem_cons_self kg0 acc)
    have hwfr : GroupsWF tagged acc := fun kg hkg => hwf kg (List.mem_cons_of_mem kg0 hkg)
    intro kg hkg
    unfold addToGroups at hkg
    by_cases hk : kg0.1 = ri.2.base_path
    · rw [if_pos hk] at hkg
      rcases List.mem_cons.mp hkg with rfl | hkg
      · refine ⟨insertMember_ne_nil _ _ _, insertMember_roles_nodup hwf0.2.1, ?_⟩
        intro m hm
        rcases insertMember_mem hm with rfl | hm
        · exact ⟨hk.symm, hri⟩
        · exact (hwf0.2.2 m hm)
      · exact hwfr kg hkg
    · rw [if_neg hk] at hkg
      rcases List.mem_cons.mp hkg with rfl | hkg
      · exact hwf0
      · exact ih hwfr kg hkg

theorem foldGroups_wf_aux {tagged : List (ImgRole × ImgInfo)} :
    ∀ (sub : List (ImgRole × ImgInfo)), (∀ m ∈ sub, m ∈ tagged) →
    ∀ (acc : List (Str × ImgGroup)), GroupsWF tagged acc →
    GroupsWF tagged (List.foldl addToGroups acc sub) := by
  intro sub
  induction sub with
  | nil => intro _ acc hacc; exact hacc
  | cons x xs ih =>
    intro hsub acc hacc
    exact ih (fun m hm => hsub m (List.mem_cons_of_mem x hm)) _
      (addToGroups_wf (hsub x (List.mem_cons_self x xs)) hacc)

theorem foldGroups_wf (tagged : List (ImgRole × ImgInfo)) :
    GroupsWF tagged (foldGroups tagged) :=
  foldGroups_wf_aux tagged (fun _ hm => hm) [] (fun _ h => absurd h (List.not_mem_nil _))

theorem tagImgs_mem {imgs : List ImgInfo} {tagged : List (ImgRole × ImgInfo)}
    (h : tagImgs imgs = some tagged) :
    ∀ m ∈ tagged, m.2.role = some m.1 ∧ m.2 ∈ imgs := by
  induction imgs generalizing tagged with
  | nil =>
    obtain rfl : tagged = [] := by simpa [tagImgs] using h.symm
    intro m hm
    cases hm
  | cons i is ih =>
    unfold tagImgs at h
    cases hr : i.role with
    | none => rw [hr] at h; cases h
    | some r =>
      rw [hr] at h
      cases ht : tagImgs is with
      | none => rw [ht] at h; cases h
      | some t =>
        rw [ht] at h
        obtain rfl : (r, i) :: t = tagged := by simpa using h
        intro m hm
        rcases List.mem_cons.mp hm with rfl | hm
        · exact ⟨hr, List.mem_cons_self i is⟩
        · obtain ⟨h1, h2⟩ := ih ht m hm
          exact ⟨h1, List.mem_cons_of_mem i h2⟩

/-- Invariants of every group produced by a successful `buildPerm` run, for
any member-reordering that permutes its argument: the group is non-empty, has
at most one member per role, every member has a recognized role matching its
slot, comes from the input list, and all members share one base path. -/
theorem buildPerm_groups_wf {reorder : List (ImgRole × ImgInfo) → List (ImgRole × ImgInfo)}
    {imgs : List ImgInfo} {gs : List ImgGroup}
    (hro : ∀ l, (reorder l).Perm l) (hb : buildPerm reorder imgs = some gs) :
    ∀ g ∈ gs, g.members ≠ []
      ∧ (g.members.map Prod.fst).Nodup
      ∧ (∀ m ∈ g.members, m.2.role = some m.1 ∧ m.2 ∈ imgs)
      ∧ ∀ m m', m ∈ g.members → m' ∈ g.members →
          m.2.base_path = m'.2.base_path := by
  obtain ⟨tagged, ht, hgs⟩ := buildPerm_eq_some hb
  subst hgs
  intro g hg
  have hg' : g ∈ (foldGroups tagged).map fun kg => ImgGroup.mk (reorder kg.2.members) :=
    (List.perm_insertionSort GroupLe _).mem_iff.mp hg
  obtain ⟨kg, hkg, rfl⟩ := List.mem_map.mp hg'
  obtain ⟨hne, hnd, hmem⟩ := foldGroups_wf tagged kg hkg
  have hperm := hro kg.2.members
  refine ⟨?_, ?_, ?_, ?_⟩
  · intro hnil
    rw [← List.length_eq_zero] at hnil
    rw [hperm.length_eq] at hnil
    exact hne (List.length_eq_zero.mp hnil)
  · exact ((hperm.map Prod.fst).nodup_iff).mpr hnd
  · intro m hm
    obtain ⟨h1, h2⟩ := hmem m (hperm.mem_iff.mp hm)
    exact ⟨(tagImgs_mem ht m h2).1, (tagImgs_mem ht m h2).2⟩
  · intro m m' hm hm'
    rw [(hmem m (hperm.mem_iff.mp hm)).1, (hmem m' (hperm.mem_iff.mp hm')).1]

/-! ### Determinism and hash-map iteration order (C9) -/

/-- Fixture images: a raw/preview pair whose capture timestamps disagree, plus
a third image dated between them. -/
def aN : ImgInfo := ⟨⟨"/d".toList, "a.NEF".toList⟩, none, ⟨2024, 1, 1, 10, 0, 0⟩, "M".toList⟩

/-- Preview member of the pair, two hours later than `aN`. -/
def aJ : ImgInfo := ⟨⟨"/d".toList, "a.JPG".toList⟩, none, ⟨2024, 1, 1, 12, 0, 0⟩, "M".toList⟩

/-- Lone raw image dated between `aN` and `aJ`. -/
def bN : ImgInfo := ⟨⟨"/d".toList, "b.NEF".toList⟩, none, ⟨2024, 1, 1, 11, 0, 0⟩, "M".toList⟩

/-- Fixture input with one two-member group whose members disagree on
timestamp. -/
def imgs9 : List ImgInfo := [aN, aJ, bN]

/-- Counterexample to C9 as stated: two admissible hash-map iteration orders
(`id` and `List.reverse`, both permutations of the member lists) give the same
input different group orderings — the two-member group's representative
timestamp depends on which member comes first — and hence different rename
sequences: the pipeline's output is not deterministic when a group's members
disagree on timestamp. -/
theorem C9_counterexample :
    ([(ImgRole.Raw, aN), (ImgRole.CameraJPG, aJ)].reverse).Perm
        [(ImgRole.Raw, aN), (ImgRole.CameraJPG, aJ)]
    ∧ (buildPerm id imgs9).map
        (fun gs => (reorganize_images gs [] false none constDocs).renames)
      ≠ (buildPerm List.reverse imgs9).map
        (fun gs => (reorganize_images gs [] false none constDocs).renames) := by decide

/-- Groups that differ only in member order (and agree on the representative
sort key). -/
def GroupMR (a b : ImgGroup) : Prop :=
  a.members.Perm b.members ∧ a.date.key = b.date.key ∧ a.basePathG = b.basePathG

theorem GroupLe_congr {a a' b b' : ImgGroup} (ha : GroupMR a a') (hb : GroupMR b b') :
    GroupLe a b ↔ GroupLe a' b' := by
  unfold GroupLe
  rw [ha.2.1, ha.2.2, hb.2.1, hb.2.2]

theorem orderedInsert_forall2 {l l' : List ImgGroup} {a a' : ImgGroup}
    (ha : GroupMR a a') (h : List.Forall₂ GroupMR l l') :
    List.Forall₂ GroupMR (List.orderedInsert GroupLe a l)
      (List.orderedInsert GroupLe a' l') := by
  induction h with
  | nil => exact List.Forall₂.cons ha List.Forall₂.nil
  | @cons b b' bs bs' hbb' hrest ih =>
    unfold List.orderedInsert
    by_cases hle : GroupLe a b
    · rw [if_pos hle, if_pos ((GroupLe_congr ha hbb').mp hle)]
      exact .cons ha (.cons hbb' hrest)
    · rw [if_neg hle, if_neg (fun h' => hle ((GroupLe_congr ha hbb').mpr h'))]
      exact .cons hbb' ih

theorem insertionSort_forall2 {l l' : List ImgGroup}
    (h : List.Forall₂ GroupMR l l') :
    List.Forall₂ GroupMR (List.insertionSort GroupLe l)
      (List.insertionSort GroupLe l') := by
  induction h with
  | nil => exact .nil
  | @cons a a' as as' hab hrest ih =>
    simp only [List.insertionSort]
    exact orderedInsert_forall2 hab ih

theorem first_img_mem {g : ImgGroup} (h : g.members ≠ []) :
    ∃ m ∈ g.members, g.first_img = m.2 := by
  cases hm : g.members with
  | nil => exact absurd hm h
  | cons m ms =>
    refine ⟨m, hm ▸ List.mem_cons_self m ms, ?_⟩
    unfold ImgGroup.first_img
    rw [hm]

/-- Two successful builds of the same input under member-permuting iteration
orders yield pointwise `GroupMR`-related group lists, provided images sharing
a base path agree on timestamp and model. -/
theorem buildPerm_forall2
    {σ τ : List (ImgRole × ImgInfo) → List (ImgRole × ImgInfo)}
    {imgs : List ImgInfo} {gsA gsB : List ImgGroup}
    (hσ : ∀ l, (σ l).Perm l) (hτ : ∀ l, (τ l).Perm l)
    (hagree : ∀ i ∈ imgs, ∀ j ∈ imgs, i.base_path = j.base_path →
        i.date = j.date ∧ i.model = j.model)
    (hA : buildPerm σ imgs = some gsA) (hB : buildPerm τ imgs = some gsB) :
    List.Forall₂ GroupMR gsA gsB := by
  obtain ⟨t1, ht1, hgsA⟩ := buildPerm_eq_some hA
  obtain ⟨t2, ht2, hgsB⟩ := buildPerm_eq_some hB
  obtain rfl : t1 = t2 := Option.some.inj (ht1.symm.trans ht2)
  subst hgsA
  subst hgsB
  apply insertionSort_forall2
  have key : ∀ kg ∈ foldGroups t1,
      GroupMR (ImgGroup.mk (σ kg.2.members)) (ImgGroup.mk (τ kg.2.members)) := by
    intro kg hkg
    obtain ⟨hne, hnd, hmem⟩ := foldGroups_wf t1 kg hkg
    have hσp := hσ kg.2.members
    have hτp := hτ kg.2.members
    have hσne : σ kg.2.members ≠ [] := by
      intro hnil
      rw [← List.length_eq_zero, hσp.length_eq] at hnil
      exact hne (List.length_eq_zero.mp hnil)
    have hτne : τ kg.2.members ≠ [] := by
      intro hnil
      rw [← List.length_eq_zero, hτp.length_eq] at hnil
      exact hne (List.length_eq_zero.mp hnil)
    obtain ⟨m1, hm1, he1⟩ := @first_img_mem (ImgGroup.mk (σ kg.2.members)) hσne
    obtain ⟨m2, hm2, he2⟩ := @first_img_mem (ImgGroup.mk (τ kg.2.members)) hτne
    have hm1' : m1 ∈ kg.2.members := hσp.mem_iff.mp hm1
    have hm2' : m2 ∈ kg.2.members := hτp.mem_iff.mp hm2
    have hb1 := (hmem m1 hm1').1
    have hb2 := (hmem m2 hm2').1
    have hin1 := (tagImgs_mem ht1 m1 (hmem m1 hm1').2).2
    have hin2 := (tagImgs_mem ht1 m2 (hmem m2 hm2').2).2
    have hdm := hagree m1.2 hin1 m2.2 hin2 (hb1.trans hb2.symm)
    refine ⟨hσp.trans hτp.symm, ?_, ?_⟩
    · show (ImgGroup.mk (σ kg.2.members)).first_img.date.key
        = (ImgGroup.mk (τ kg.2.members)).first_img.date.key
      rw [he1, he2, hdm.1]
    · show (ImgGroup.mk (σ kg.2.members)).first_img.base_path
        = (ImgGroup.mk (τ kg.2.members)).first_img.base_path
      rw [he1, he2, hb1, hb2]
  clear hA hB ht1
  revert key
  generalize foldGroups t1 = L
  intro key
  induction L with
  | nil => exact .nil
  | cons kg kgs ih =>
    simp only [List.map_cons]
    exact .cons (key kg (List.mem_cons_self kg kgs))
      (ih fun kg' h' => key kg' (List.mem_cons_of_mem kg h'))

theorem memberOk_of_wf {docs : FsPath → Sidecar}
    (hdocs : ∀ p, wellFormedSidecar (docs p) = true) (m : ImgRole × ImgInfo) :
    memberOk docs m = true := by
  unfold memberOk
  cases m.2.sidecar_path with
  | none => rfl
  | some sp => exact hdocs sp

theorem processMembers_wf_fields (docs : FsPath → Sidecar)
    (hdocs : ∀ p, wellFormedSidecar (docs p) = true) (i : Nat) (pfx : Str)
    (w : Nat) (d : Bool) (ms : List (ImgRole × ImgInfo)) :
    (processMembers docs i pfx w d ms).ok = true
    ∧ (processMembers docs i pfx w d ms).renames
        = ms.flatMap (fun m => (processMember docs i pfx w d m).renames)
    ∧ (processMembers docs i pfx w d ms).prints
        = ms.flatMap (fun m => (processMember docs i pfx w d m).prints)
    ∧ (processMembers docs i pfx w d ms).writes
        = ms.flatMap (fun m => (processMember docs i pfx w d m).writes) := by
  induction ms with
  | nil => exact ⟨rfl, rfl, rfl, rfl⟩
  | cons m ms ih =>
    have hok : (processMember docs i pfx w d m).ok = true := by
      rw [processMember_ok_eq_memberOk]
      exact memberOk_of_wf hdocs m
    obtain ⟨ih1, ih2, ih3, ih4⟩ := ih
    simp only [processMembers, if_pos hok, ReorgOut.comb_ok, ReorgOut.comb_renames,
      ReorgOut.comb_prints, ReorgOut.comb_writes, List.flatMap_cons]
    exact ⟨ih1, by rw [ih2], by rw [ih3], by rw [ih4]⟩

theorem processGroups_perm (docs : FsPath → Sidecar)
    (hdocs : ∀ p, wellFormedSidecar (docs p) = true) (pfx : Str) (w : Nat)
    (d : Bool) : ∀ (n : Nat) {gs gs' : List ImgGroup},
    List.Forall₂ GroupMR gs gs' →
    (processGroups docs pfx w d n gs).renames.Perm
        ((processGroups docs pfx w d n gs').renames)
    ∧ (processGroups docs pfx w d n gs).prints.Perm
        ((processGroups docs pfx w d n gs').prints)
    ∧ (processGroups docs pfx w d n gs).writes.Perm
        ((processGroups docs pfx w d n gs').writes)
    ∧ (processGroups docs pfx w d n gs).ok = true
    ∧ (processGroups docs pfx w d n gs').ok = true := by
  intro n gs gs' h
  induction h generalizing n with
  | nil => exact ⟨.refl _, .refl _, .refl _, rfl, rfl⟩
  | @cons g g' gsr gsr' hgg hrest ih =>
    obtain ⟨hok1, hren1, hpr1, hwr1⟩ := processMembers_wf_fields docs hdocs n pfx w d g.members
    obtain ⟨hok2, hren2, hpr2, hwr2⟩ :=
      processMembers_wf_fields docs hdocs n pfx w d g'.members
    obtain ⟨ihr, ihp, ihw, ihok, ihok'⟩ := ih (n + 1)
    have hmp := hgg.1
    simp only [processGroups, if_pos hok1, if_pos hok2, ReorgOut.comb_renames,
      ReorgOut.comb_prints, ReorgOut.comb_writes, ReorgOut.comb_ok]
    refine ⟨?_, ?_, ?_, ihok, ihok'⟩
    · rw [hren1, hren2]
      exact (List.Perm.flatMap_right _ hmp).append ihr
    · rw [hpr1, hpr2]
      exact (List.Perm.flatMap_right _ hmp).append ihp
    · rw [hwr1, hwr2]
      exact (List.Perm.flatMap_right _ hmp).append ihw

/-- C9 amended: the pipeline's output is deterministic only up to the
hash-map member-iteration order, and only for inputs whose same-base-path
images agree on timestamp and model.  Under that agreement (and with
structurally well-formed sidecars, so no order-dependent abort), any two
iteration orders produce the same *multisets* of renames, printed lines and
sidecar writes, and both runs complete; the counterexample shows the claim's
unconditional determinism fails when members disagree. -/
theorem C9_determinism_up_to_member_order (imgs : List ImgInfo) (pfx : Str)
    (dryrun : Bool) (digits : Option Nat) (docs : FsPath → Sidecar)
    (σ τ : List (ImgRole × ImgInfo) → List (ImgRole × ImgInfo))
    (gsA gsB : List ImgGroup)
    (hσ : ∀ l, (σ l).Perm l) (hτ : ∀ l, (τ l).Perm l)
    (hagree : ∀ i ∈ imgs, ∀ j ∈ imgs, i.base_path = j.base_path →
        i.date = j.date ∧ i.model = j.model)
    (hdocs : ∀ p, wellFormedSidecar (docs p) = true)
    (hA : buildPerm σ imgs = some gsA) (hB : buildPerm τ imgs = some gsB) :
    (reorganize_images gsA pfx dryrun digits docs).renames.Perm
        ((reorganize_images gsB pfx dryrun digits docs).renames)
    ∧ (reorganize_images gsA pfx dryrun digits docs).prints.Perm
        ((reorganize_images gsB pfx dryrun digits docs).prints)
    ∧ (reorganize_images gsA pfx dryrun digits docs).writes.Perm
        ((reorganize_images gsB pfx dryrun digits docs).writes)
    ∧ (reorganize_images gsA pfx dryrun digits docs).ok = true
    ∧ (reorganize_images gsB pfx dryrun digits docs).ok = true := by
  have hf2 := buildPerm_forall2 hσ hτ hagree hA hB
  have hlen : gsA.length = gsB.length := hf2.length_eq
  unfold reorganize_images
  rw [hlen]
  exact processGroups_perm docs hdocs pfx (digitsOf digits gsB.length) dryrun 1 hf2

/-- Fixture input where the pair's members agree on timestamp and model. -/
def imgs9A : List ImgInfo :=
  [⟨⟨"/d".toList, "a.NEF".toList⟩, none, ⟨2024, 1, 1, 10, 0, 0⟩, "M".toList⟩,
   ⟨⟨"/d".toList, "a.JPG".toList⟩, none, ⟨2024, 1, 1, 10, 0, 0⟩, "M".toList⟩]

/-- Witness for C9 (amended) at a concrete agreeing input, comparing the
insertion iteration order with its reverse. -/
theorem C9_witness :
    ∃ gsA gsB, buildPerm id imgs9A = some gsA ∧ buildPerm List.reverse imgs9A = some gsB
    ∧ ((reorganize_images gsA [] false none wDocs).renames.Perm
        ((reorganize_images gsB [] false none wDocs).renames)
      ∧ (reorganize_images gsA [] false none wDocs).prints.Perm
        ((reorganize_images gsB [] false none wDocs).prints)
      ∧ (reorganize_images gsA [] false none wDocs).writes.Perm
        ((reorganize_images gsB [] false none wDocs).writes)
      ∧ (reorganize_images gsA [] false none wDocs).ok = true
      ∧ (reorganize_images gsB [] false none wDocs).ok = true) := by
  refine ⟨(buildPerm id imgs9A).get (by decide), (buildPerm List.reverse imgs9A).get (by decide),
    Option.some_get _ |>.symm, Option.some_get _ |>.symm, ?_⟩
  exact C9_determinism_up_to_member_order imgs9A [] false none wDocs id List.reverse
    _ _ (fun l => List.Perm.refl l) (fun l => List.reverse_perm l)
    (by decide) (fun p => rfl)
    (Option.some_get _ |>.symm) (Option.some_get _ |>.symm)

/-! ### Idempotence of the rename pass (C6) -/

/-- The state of one group member's image file after a completed real run:
run 1 renamed the file (within its directory) to the name `rename_file`
computes for sequence index `i`, its embedded metadata (capture timestamp,
camera model) is untouched, and its sidecar — when it had one — was renamed
the same way next to it.  `rename_file`'s returned path equals this `path`
(see C6's first conjunct). -/
def run2Info (w : Nat) (pfx : Str) (i : Nat) (m : ImgRole × ImgInfo) : ImgInfo :=
  { path := ⟨m.2.path.parent, targetFileName i m.2 pfx w m.2.path.name⟩
    sidecar_path := m.2.sidecar_path.map fun sp =>
      ⟨sp.parent, targetFileName i m.2 pfx w sp.name⟩
    date := m.2.date
    model := m.2.model }

/-- The group the second run rebuilds from the renamed files of the run-1
group numbered `n`: the same members, each replaced by its renamed state. -/
def mkG (w : Nat) (pfx : Str) (n : Nat) (g : ImgGroup) : ImgGroup :=
  ⟨g.members.map fun m => (m.1, run2Info w pfx n m)⟩

/-- The directory contents a second scan sees, group by group in run-1
sequence order: for the group numbered `n`, each member's renamed file. -/
def run2FilesAux (w : Nat) (pfx : Str) : Nat → List ImgGroup → List ImgInfo
  | _, [] => []
  | n, g :: gs =>
    g.members.map (fun m => run2Info w pfx n m) ++ run2FilesAux w pfx (n + 1) gs

/-- Second-scan input for a completed run numbered from 1. -/
def run2Files (w : Nat) (pfx : Str) (gs : List ImgGroup) : List ImgInfo :=
  run2FilesAux w pfx 1 gs

/-- The role-tagged form of `run2FilesAux` (roles are preserved by the
rename, since the extension is preserved). -/
def run2TaggedAux (w : Nat) (pfx : Str) : Nat → List ImgGroup → List (ImgRole × ImgInfo)
  | _, [] => []
  | n, g :: gs =>
    g.members.map (fun m => (m.1, run2Info w pfx n m)) ++ run2TaggedAux w pfx (n + 1) gs

/-- The base-path key shared by the renamed files of the group numbered `n`. -/
def run2Key (w : Nat) (pfx : Str) (n : Nat) (g : ImgGroup) : Str :=
  match g.members with
  | [] => []
  | m :: _ => (run2Info w pfx n m).base_path

/-- The grouping the second run rebuilds: one group per run-1 group, in run-1
sequence order, keyed by the renamed base path. -/
def run2Groups (w : Nat) (pfx : Str) : Nat → List ImgGroup → List (Str × ImgGroup)
  | _, [] => []
  | n, g :: gs => (run2Key w pfx n g, mkG w pfx n g) :: run2Groups w pfx (n + 1) gs

theorem targetStem_congr {i : Nat} {img img' : ImgInfo} {pfx : Str} {w : Nat}
    (hd : img.date = img'.date) (hm : img.model = img'.model) :
    targetStem i img pfx w = targetStem i img' pfx w := by
  unfold targetStem
  rw [hd, hm]

/-- The renamed image file's name, given its recognized extension. -/
theorem run2Info_name {w : Nat} {pfx : Str} {i : Nat} {m : ImgRole × ImgInfo}
    {ext : Str} (hext : extOf m.2.path.name = some ext)
    (hxmp : lowerStr ext ≠ "xmp".toList) :
    (run2Info w pfx i m).path.name = targetStem i m.2 pfx w ++ '.' :: ext := by
  obtain ⟨s, hdec, hdot⟩ := extOf_decomp hext
  show targetFileName i m.2 pfx w m.2.path.name = _
  rw [hdec]
  exact targetFileName_plain hdot hxmp

/-- Renaming the renamed image file again with the same index and settings is
a no-op: the computed name equals the current name. -/
theorem run2Info_noop {w : Nat} {pfx : Str} {i : Nat} {m : ImgRole × ImgInfo}
    {ext : Str} (hext : extOf m.2.path.name = some ext)
    (hxmp : lowerStr ext ≠ "xmp".toList) :
    targetFileName i (run2Info w pfx i m) pfx w (run2Info w pfx i m).path.name
      = (run2Info w pfx i m).path.name := by
  obtain ⟨s, hdec, hdot⟩ := extOf_decomp hext
  rw [run2Info_name hext hxmp]
  rw [targetFileName_plain hdot hxmp]
  have : targetStem i (run2Info w pfx i m) pfx w = targetStem i m.2 pfx w :=
    targetStem_congr rfl rfl
  rw [this]

/-- The renamed sidecar's name: the renamed image's name plus `.xmp` (the
last two dot components of the sidecar's old name survive). -/
theorem run2_sidecar_name {w : Nat} {pfx : Str} {i : Nat} {m : ImgRole × ImgInfo}
    {sp : FsPath} {ext : Str} (hext : extOf m.2.path.name = some ext)
    (hxmp : lowerStr ext ≠ "xmp".toList)
    (hname : sp.name = m.2.path.name ++ ".xmp".toList) :
    targetFileName i m.2 pfx w sp.name
      = (targetStem i m.2 pfx w ++ '.' :: ext) ++ '.' :: "xmp".toList := by
  obtain ⟨s, hdec, hdot⟩ := extOf_decomp hext
  have hxl : ".xmp".toList = '.' :: "xmp".toList := rfl
  rw [hname, hdec, hxl]
  have h := @targetFileName_xmp i m.2 pfx w s ext ("xmp".toList) hdot
    (by decide) (by decide)
  simp only [List.cons_append, List.append_assoc] at h ⊢
  exact h

/-- Renaming the renamed sidecar again with the same index and settings is a
no-op. -/
theorem run2_sidecar_noop {w : Nat} {pfx : Str} {i : Nat} {m : ImgRole × ImgInfo}
    {sp : FsPath} {ext : Str} (hext : extOf m.2.path.name = some ext)
    (hxmp : lowerStr ext ≠ "xmp".toList)
    (hname : sp.name = m.2.path.name ++ ".xmp".toList) :
    targetFileName i (run2Info w pfx i m) pfx w (targetFileName i m.2 pfx w sp.name)
      = targetFileName i m.2 pfx w sp.name := by
  rw [run2_sidecar_name hext hxmp hname]
  have h := @targetFileName_xmp i (run2Info w pfx i m) pfx w
    (targetStem i m.2 pfx w) ext ("xmp".toList)
    (by obtain ⟨s, hdec, hdot⟩ := extOf_decomp hext; exact hdot)
    (by decide) (by decide)
  rw [h]
  have : targetStem i (run2Info w pfx i m) pfx w = targetStem i m.2 pfx w :=
    targetStem_congr rfl rfl
  rw [this]
  simp only [List.cons_append, List.append_assoc]

/-- The renamed file's base path: the shared parent joined with the new stem. -/
theorem run2Info_base_path {w : Nat} {pfx : Str} {i : Nat} {m : ImgRole × ImgInfo}
    {ext : Str} (hext : extOf m.2.path.name = some ext)
    (hxmp : lowerStr ext ≠ "xmp".toList) :
    (run2Info w pfx i m).base_path
      = m.2.path.parent ++ '/' :: targetStem i m.2 pfx w := by
  obtain ⟨s, hdec, hdot⟩ := extOf_decomp hext
  unfold ImgInfo.base_path
  rw [run2Info_name hext hxmp]
  rw [fileStem_append_ext hdot]
  rfl

/-- The renamed file keeps its role (the extension is preserved). -/
theorem run2Info_role {w : Nat} {pfx : Str} {i : Nat} {m : ImgRole × ImgInfo}
    {ext : Str} (hext : extOf m.2.path.name = some ext)
    (hxmp : lowerStr ext ≠ "xmp".toList) :
    (run2Info w pfx i m).role = m.2.role := by
  obtain ⟨s, hdec, hdot⟩ := extOf_decomp hext
  unfold ImgInfo.role
  rw [run2Info_name hext hxmp, extOf_append_ext hdot, hext]

/-- Branch C6 relies on: when the computed file name equals the current one,
`rename_file` performs no rename, prints nothing, and returns the unchanged
path (dry run or not). -/
theorem rename_file_noop {src : FsPath} {i : Nat} {img : ImgInfo} {pfx : Str}
    {w : Nat} (d : Bool) (h : targetFileName i img pfx w src.name = src.name) :
    rename_file src i img pfx w d = ⟨src, [], []⟩ := by
  have he : (⟨src.parent, targetFileName i img pfx w src.name⟩ : FsPath) = src := by
    rw [h]
  simp only [rename_file, he]
  cases d <;> simp

theorem processMember_noop (docs : FsPath → Sidecar) (i : Nat) (pfx : Str)
    (w : Nat) (d : Bool) (m : ImgRole × ImgInfo)
    (h1 : targetFileName i m.2 pfx w m.2.path.name = m.2.path.name)
    (h2 : ∀ sp ∈ m.2.sidecar_path, targetFileName i m.2 pfx w sp.name = sp.name) :
    (processMember docs i pfx w d m).renames = []
    ∧ (processMember docs i pfx w d m).prints = [] := by
  rw [processMember_renames, processMember_prints, rename_file_noop d h1]
  cases hsp : m.2.sidecar_path with
  | none => exact ⟨rfl, rfl⟩
  | some sp =>
    have h2' := h2 sp (by rw [hsp]; rfl)
    simp [rename_file_noop d h2']

/-- A run-2 member — a run-1 member in its renamed state, processed under the
same sequence index and settings — renames nothing and prints nothing. -/
theorem run2_member_noop (docs : FsPath → Sidecar) {w : Nat} {pfx : Str} {i : Nat}
    {m : ImgRole × ImgInfo} (d : Bool) {ext : Str}
    (hext : extOf m.2.path.name = some ext) (hxmp : lowerStr ext ≠ "xmp".toList)
    (hsc : ∀ sp ∈ m.2.sidecar_path, sp.name = m.2.path.name ++ ".xmp".toList) :
    (processMember docs i pfx w d (m.1, run2Info w pfx i m)).renames = []
    ∧ (processMember docs i pfx w d (m.1, run2Info w pfx i m)).prints = [] := by
  apply processMember_noop
  · exact run2Info_noop hext hxmp
  · intro sp2 hsp2
    show targetFileName i (run2Info w pfx i m) pfx w sp2.name = sp2.name
    have hmap : (run2Info w pfx i m).sidecar_path
        = m.2.sidecar_path.map fun sp => ⟨sp.parent, targetFileName i m.2 pfx w sp.name⟩ :=
      rfl
    rw [hmap] at hsp2
    cases ho : m.2.sidecar_path with
    | none => rw [ho] at hsp2; cases hsp2
    | some sp =>
      rw [ho] at hsp2
      have h2 : sp2 = ⟨sp.parent, targetFileName i m.2 pfx w sp.name⟩ := by
        exact (by simpa using hsp2 : _ = sp2).symm
      subst h2
      show targetFileName i (run2Info w pfx i m) pfx w
          (targetFileName i m.2 pfx w sp.name) = targetFileName i m.2 pfx w sp.name
      exact run2_sidecar_noop hext hxmp (hsc sp (by rw [ho]; rfl))

theorem processMembers_nil_of (docs : FsPath → Sidecar) (i : Nat) (pfx : Str)
    (w : Nat) (d : Bool) : ∀ (ms : List (ImgRole × ImgInfo)),
    (∀ m ∈ ms, (processMember docs i pfx w d m).renames = []
      ∧ (processMember docs i pfx w d m).prints = []) →
    (processMembers docs i pfx w d ms).renames = []
    ∧ (processMembers docs i pfx w d ms).prints = [] := by
  intro ms
  induction ms with
  | nil => intro _; exact ⟨rfl, rfl⟩
  | cons m ms ih =>
    intro h
    have hm := h m (List.mem_cons_self m ms)
    have hms := ih fun x hx => h x (List.mem_cons_of_mem m hx)
    by_cases hok : (processMember docs i pfx w d m).ok = true
    · simp only [processMembers, if_pos hok, ReorgOut.comb_renames, ReorgOut.comb_prints]
      rw [hm.1, hm.2, hms.1, hms.2]
      exact ⟨rfl, rfl⟩
    · simp only [processMembers, if_neg hok]
      exact hm

/-- The facts C6 needs about each group a successful run-1 build produced, all
established from the source invariants plus C6's input hypotheses: the group
is non-empty with pairwise-distinct roles; every member has a valid role,
lives in the scanned directory `p`, and any sidecar sits next to it under the
`name + ".xmp"` convention; and all members agree on timestamp and model. -/
def C6blockOK (p : Str) (g : ImgGroup) : Prop :=
  g.members ≠ []
  ∧ (g.members.map Prod.fst).Nodup
  ∧ (∀ m ∈ g.members, m.2.role = some m.1
      ∧ m.2.path.parent = p
      ∧ ∀ sp ∈ m.2.sidecar_path, sp.name = m.2.path.name ++ ".xmp".toList)
  ∧ ∀ m ∈ g.members, ∀ m' ∈ g.members, m.2.date = m'.2.date ∧ m.2.model = m'.2.model

theorem strLt_ne {a b : Str} (h : strLt a b = true) : a ≠ b := by
  intro e
  subst e
  rw [strLt_irrefl] at h
  cases h

theorem targetStem_decomp (n : Nat) (img : ImgInfo) (pfx : Str) (w : Nat) :
    ∃ rest, targetStem n img pfx w = padIndex w n ++ ' ' :: rest := by
  unfold targetStem
  by_cases hp : pfx = []
  · rw [if_pos hp]
    exact ⟨fmtDate img.date ++ ' ' :: img.model, by simp⟩
  · rw [if_neg hp]
    exact ⟨fmtDate img.date ++ ' ' :: pfx ++ ' ' :: img.model, by simp⟩

theorem role_some_ext {m : ImgRole × ImgInfo} (h : m.2.role = some m.1) :
    ∃ ext, extOf m.2.path.name = some ext ∧ lowerStr ext ≠ "xmp".toList :=
  role_ext (by rw [h]; rfl)

theorem run2Key_eq {g : ImgGroup} {m : ImgRole × ImgInfo}
    {ms : List (ImgRole × ImgInfo)} (hm : g.members = m :: ms) {ext : Str}
    (hext : extOf m.2.path.name = some ext) (hxmp : lowerStr ext ≠ "xmp".toList)
    (w : Nat) (pfx : Str) (n : Nat) :
    run2Key w pfx n g = m.2.path.parent ++ '/' :: targetStem n m.2 pfx w := by
  unfold run2Key
  rw [hm]
  exact run2Info_base_path hext hxmp

/-- Keys of distinct run-1 groups compare strictly by sequence index: the
renamed base paths start with the shared directory and the equal-width
zero-padded index. -/
theorem run2Key_lt {w : Nat} {pfx p : Str} {n j : Nat} {g g' : ImgGroup}
    (h0 : 0 < n) (hnj : n < j) (hj : j < 10 ^ w)
    (hg : C6blockOK p g) (hg' : C6blockOK p g') :
    strLt (run2Key w pfx n g) (run2Key w pfx j g') = true := by
  cases hm : g.members with
  | nil => exact absurd hm hg.1
  | cons m ms =>
  cases hm' : g'.members with
  | nil => exact absurd hm' hg'.1
  | cons m' ms' =>
  have hfacts := hg.2.2.1 m (by rw [hm]; exact List.mem_cons_self m ms)
  have hfacts' := hg'.2.2.1 m' (by rw [hm']; exact List.mem_cons_self m' ms')
  obtain ⟨ext, hext, hxmp⟩ := role_some_ext hfacts.1
  obtain ⟨ext', hext', hxmp'⟩ := role_some_ext hfacts'.1
  rw [run2Key_eq hm hext hxmp w pfx n, run2Key_eq hm' hext' hxmp' w pfx j,
    hfacts.2.1, hfacts'.2.1]
  obtain ⟨r1, hs1⟩ := targetStem_decomp n m.2 pfx w
  obtain ⟨r2, hs2⟩ := targetStem_decomp j m'.2 pfx w
  rw [hs1, hs2]
  have hlen : (padIndex w n).length = (padIndex w j).length := by
    rw [padIndex_eq_padNum h0 (lt_trans hnj hj),
      padIndex_eq_padNum (lt_trans h0 hnj) hj, padNum_length, padNum_length]
  have hmain := strLt_eqlen_append hlen (padIndex_lt h0 hnj hj) (' ' :: r1) (' ' :: r2)
  have e1 : p ++ '/' :: (padIndex w n ++ ' ' :: r1)
      = (p ++ ['/']) ++ (padIndex w n ++ ' ' :: r1) := by simp
  have e2 : p ++ '/' :: (padIndex w j ++ ' ' :: r2)
      = (p ++ ['/']) ++ (padIndex w j ++ ' ' :: r2) := by simp
  rw [e1, e2, strLt_append_left]
  exact hmain

theorem mkG_date {w : Nat} {pfx : Str} {n : Nat} {g : ImgGroup}
    {m : ImgRole × ImgInfo} {ms : List (ImgRole × ImgInfo)}
    (hm : g.members = m :: ms) : (mkG w pfx n g).date = g.date := by
  unfold mkG ImgGroup.date ImgGroup.first_img
  simp only [hm, List.map_cons]
  rfl

theorem mkG_basePathG {w : Nat} {pfx : Str} {n : Nat} {g : ImgGroup}
    {m : ImgRole × ImgInfo} {ms : List (ImgRole × ImgInfo)}
    (hm : g.members = m :: ms) : (mkG w pfx n g).basePathG = run2Key w pfx n g := by
  unfold mkG ImgGroup.basePathG ImgGroup.first_img run2Key
  simp only [hm, List.map_cons]

theorem tagImgs_append {ys : List ImgInfo} {tys : List (ImgRole × ImgInfo)}
    (hy : tagImgs ys = some tys) :
    ∀ {xs : List ImgInfo} {txs : List (ImgRole × ImgInfo)},
    tagImgs xs = some txs → tagImgs (xs ++ ys) = some (txs ++ tys) := by
  intro xs
  induction xs with
  | nil =>
    intro txs hx
    simp only [tagImgs] at hx
    cases hx
    simpa using hy
  | cons i is ih =>
    intro txs hx
    simp only [tagImgs] at hx
    cases hr : i.role with
    | none => rw [hr] at hx; cases hx
    | some r =>
      rw [hr] at hx
      cases ht : tagImgs is with
      | none => rw [ht] at hx; cases hx
      | some t =>
        rw [ht] at hx
        cases hx
        rw [List.cons_append]
        simp only [tagImgs, hr, ih ht, List.cons_append]

theorem tagImgs_run2_block (w : Nat) (pfx : Str) (n : Nat) :
    ∀ (ms : List (ImgRole × ImgInfo)), (∀ m ∈ ms, m.2.role = some m.1) →
    tagImgs (ms.map fun m => run2Info w pfx n m)
      = some (ms.map fun m => (m.1, run2Info w pfx n m)) := by
  intro ms
  induction ms with
  | nil => intro _; rfl
  | cons m ms ih =>
    intro h
    have hrole := h m (List.mem_cons_self m ms)
    obtain ⟨ext, hext, hxmp⟩ := role_some_ext hrole
    have hr2 : (run2Info w pfx n m).role = some m.1 := by
      rw [run2Info_role hext hxmp]
      exact hrole
    simp only [List.map_cons, tagImgs, hr2,
      ih fun x hx => h x (List.mem_cons_of_mem m hx)]

/-- The second scan's role-tagging pass succeeds and tags each renamed file
with its (preserved) role. -/
theorem tagImgs_run2 (w : Nat) (pfx : Str) :
    ∀ (gs : List ImgGroup) (n : Nat),
    (∀ g ∈ gs, ∀ m ∈ g.members, m.2.role = some m.1) →
    tagImgs (run2FilesAux w pfx n gs) = some (run2TaggedAux w pfx n gs) := by
  intro gs
  induction gs with
  | nil => intro n _; rfl
  | cons g gs ih =>
    intro n h
    show tagImgs (g.members.map (fun m => run2Info w pfx n m)
        ++ run2FilesAux w pfx (n + 1) gs)
      = some (g.members.map (fun m => (m.1, run2Info w pfx n m))
        ++ run2TaggedAux w pfx (n + 1) gs)
    exact tagImgs_append
      (ih (n + 1) fun g' hg' => h g' (List.mem_cons_of_mem g hg'))
      (tagImgs_run2_block w pfx n g.members (h g (List.mem_cons_self g gs)))

/-- Folding further members of an already-open group (fresh roles, shared
key, key not among the earlier groups) appends them to that group in order. -/
theorem foldl_run2_block {acc : List (Str × ImgGroup)} {K : Str} :
    ∀ (ms : List (ImgRole × ImgInfo)) (g0 : ImgGroup),
    (∀ m ∈ ms, m.2.base_path = K) → K ∉ acc.map Prod.fst →
    (∀ m ∈ ms, m.1 ∉ g0.members.map Prod.fst) → (ms.map Prod.fst).Nodup →
    List.foldl addToGroups (acc ++ [(K, g0)]) ms = acc ++ [(K, ⟨g0.members ++ ms⟩)] := by
  intro ms
  induction ms with
  | nil =>
    intro g0 _ _ _ _
    simp
  | cons m ms ih =>
    intro g0 hbp hK hrole hnd
    show List.foldl addToGroups (addToGroups (acc ++ [(K, g0)]) m) ms = _
    rw [addToGroups_last (hbp m (List.mem_cons_self m ms)) hK,
      insertMember_fresh (hrole m (List.mem_cons_self m ms))]
    simp only [List.map_cons, List.nodup_cons] at hnd
    have := ih ⟨g0.members ++ [(m.1, m.2)]⟩
      (fun x hx => hbp x (List.mem_cons_of_mem m hx)) hK
      (by
        intro x hx
        simp only [List.map_append, List.mem_append, List.map_cons, List.map_nil,
          List.mem_singleton]
        push_neg
        refine ⟨hrole x (List.mem_cons_of_mem m hx), ?_⟩
        intro he
        exact hnd.1 (he ▸ List.mem_map.mpr ⟨x, hx, rfl⟩))
      hnd.2
    rw [this]
    simp

/-- Folding one whole block of members with a fresh key appends one new group
holding exactly that block. -/
theorem foldl_run2_block_start {acc : List (Str × ImgGroup)} {K : Str}
    {bs : List (ImgRole × ImgInfo)} (hne : bs ≠ [])
    (hbp : ∀ x ∈ bs, x.2.base_path = K) (hK : K ∉ acc.map Prod.fst)
    (hnd : (bs.map Prod.fst).Nodup) :
    List.foldl addToGroups acc bs = acc ++ [(K, ⟨bs⟩)] := by
  cases bs with
  | nil => exact absurd rfl hne
  | cons m ms =>
    show List.foldl addToGroups (addToGroups acc m) ms = _
    have h1 : addToGroups acc m = acc ++ [(K, ⟨[m]⟩)] := by
      have hf := @addToGroups_fresh acc m
        (by rw [hbp m (List.mem_cons_self m ms)]; exact hK)
      rw [hf, hbp m (List.mem_cons_self m ms)]
    rw [h1]
    simp only [List.map_cons, List.nodup_cons] at hnd
    have := foldl_run2_block ms ⟨[m]⟩
      (fun x hx => hbp x (List.mem_cons_of_mem m hx)) hK
      (by
        intro x hx
        simp only [List.map_cons, List.map_nil, List.mem_singleton]
        intro he
        exact hnd.1 (he ▸ List.mem_map.mpr ⟨x, hx, rfl⟩))
      hnd.2
    rw [this]
    rfl

/-- The grouping fold of the second run, started on any accumulator holding
only earlier-numbered keys, appends the canonical run-2 groups in run-1
order. -/
theorem foldGroups_run2_aux (w : Nat) (pfx p : Str) :
    ∀ (gs : List ImgGroup) (n : Nat) (acc : List (Str × ImgGroup)),
    0 < n → n + gs.length ≤ 10 ^ w →
    (∀ g ∈ gs, C6blockOK p g) →
    (∀ kg ∈ acc, ∃ i g0, 0 < i ∧ i < n ∧ C6blockOK p g0
      ∧ kg.1 = run2Key w pfx i g0) →
    List.foldl addToGroups acc (run2TaggedAux w pfx n gs)
      = acc ++ run2Groups w pfx n gs := by
  intro gs
  induction gs with
  | nil =>
    intro n acc _ _ _ _
    show List.foldl addToGroups acc [] = acc ++ run2Groups w pfx n []
    simp [run2Groups]
  | cons g gs ih =>
    intro n acc h0 hbound hblocks hacc
    simp only [List.length_cons] at hbound
    have hg := hblocks g (List.mem_cons_self g gs)
    have hunf : run2TaggedAux w pfx n (g :: gs)
        = g.members.map (fun m => (m.1, run2Info w pfx n m))
          ++ run2TaggedAux w pfx (n + 1) gs := rfl
    rw [hunf, List.foldl_append]
    have hKfresh : run2Key w pfx n g ∉ acc.map Prod.fst := by
      intro hmem
      obtain ⟨kg, hkg, he⟩ := List.mem_map.mp hmem
      obtain ⟨i, g0, hi0, hin, hg0, hkey⟩ := hacc kg hkg
      have hlt := @run2Key_lt w pfx p i n g0 g hi0 hin (by omega : n < 10 ^ w) hg0 hg
      exact strLt_ne hlt (by rw [← hkey, he])
    obtain ⟨m0, ms0, hm⟩ : ∃ m0 ms0, g.members = m0 :: ms0 := by
      cases he : g.members with
      | nil => exact absurd he hg.1
      | cons a b => exact ⟨a, b, rfl⟩
    have hfm0 := hg.2.2.1 m0 (by rw [hm]; exact List.mem_cons_self m0 ms0)
    obtain ⟨ext0, hext0, hxmp0⟩ := role_some_ext hfm0.1
    have hbp : ∀ x ∈ g.members.map (fun m => (m.1, run2Info w pfx n m)),
        x.2.base_path = run2Key w pfx n g := by
      intro x hx
      obtain ⟨m, hmmem, rfl⟩ := List.mem_map.mp hx
      have hf := hg.2.2.1 m hmmem
      obtain ⟨ext, hext, hxmp⟩ := role_some_ext hf.1
      show (run2Info w pfx n m).base_path = _
      rw [run2Info_base_path hext hxmp, run2Key_eq hm hext0 hxmp0 w pfx n]
      have hag := hg.2.2.2 m hmmem m0 (by rw [hm]; exact List.mem_cons_self m0 ms0)
      rw [hf.2.1, hfm0.2.1, targetStem_congr hag.1 hag.2]
    have hnd : ((g.members.map (fun m => (m.1, run2Info w pfx n m))).map Prod.fst).Nodup := by
      rw [List.map_map]
      exact hg.2.1
    have hstep1 : List.foldl addToGroups acc
        (g.members.map (fun m => (m.1, run2Info w pfx n m)))
        = acc ++ [(run2Key w pfx n g, mkG w pfx n g)] :=
      foldl_run2_block_start (by simp [hg.1]) hbp hKfresh hnd
    rw [hstep1]
    have hstep2 := ih (n + 1) (acc ++ [(run2Key w pfx n g, mkG w pfx n g)])
      (by omega) (by omega)
      (fun g' hg' => hblocks g' (List.mem_cons_of_mem g hg'))
      (by
        intro kg hkg
        rcases List.mem_append.mp hkg with hold | hnew
        · obtain ⟨i, g0, hi0, hin, hg0, hkey⟩ := hacc kg hold
          exact ⟨i, g0, hi0, by omega, hg0, hkey⟩
        · have : kg = (run2Key w pfx n g, mkG w pfx n g) := by
            simpa using hnew
          exact ⟨n, g, h0, by omega, hg, by rw [this]⟩)
    rw [hstep2]
    show _ = acc ++ ((run2Key w pfx n g, mkG w pfx n g) :: run2Groups w pfx (n + 1) gs)
    simp

/-- The second run's grouping pass rebuilds exactly the canonical run-2
groups, in run-1 sequence order. -/
theorem foldGroups_run2 (w : Nat) (pfx p : Str) (gs : List ImgGroup)
    (hlen : 1 + gs.length ≤ 10 ^ w) (hblocks : ∀ g ∈ gs, C6blockOK p g) :
    foldGroups (run2TaggedAux w pfx 1 gs) = run2Groups w pfx 1 gs := by
  have := foldGroups_run2_aux w pfx p gs 1 [] (by omega) hlen hblocks
    (fun kg h => absurd h (List.not_mem_nil kg))
  simpa [foldGroups] using this

theorem strLe_of_strLt {a b : Str} (h : strLt a b = true) : strLe a b = true := by
  unfold strLe
  rw [strLt_asymm h]
  rfl

/-- The canonical run-2 group built from run-1 group `n` sorts no later than
any run-2 group built from a later run-1 group: dates are inherited, and on a
date tie the renamed base paths compare by sequence index. -/
theorem run2Groups_head_le (w : Nat) (pfx p : Str) {g : ImgGroup}
    (hg : C6blockOK p g) {n : Nat} (h0 : 0 < n) :
    ∀ (gs : List ImgGroup) (j : Nat), n < j → j + gs.length ≤ 10 ^ w →
    (∀ g' ∈ gs, C6blockOK p g' ∧ GroupLe g g') →
    ∀ b ∈ (run2Groups w pfx j gs).map Prod.snd, GroupLe (mkG w pfx n g) b := by
  intro gs
  induction gs with
  | nil =>
    intro j _ _ _ b hb
    simp [run2Groups] at hb
  | cons g' gs ih =>
    intro j hnj hbound hall b hb
    simp only [List.length_cons] at hbound
    have hgb : run2Groups w pfx j (g' :: gs)
        = (run2Key w pfx j g', mkG w pfx j g') :: run2Groups w pfx (j + 1) gs := rfl
    rw [hgb, List.map_cons] at hb
    rcases List.mem_cons.mp hb with rfl | hb'
    · have hgg' := hall g' (List.mem_cons_self g' gs)
      obtain ⟨m, ms, hm⟩ : ∃ m ms, g.members = m :: ms := by
        cases he : g.members with
        | nil => exact absurd he hg.1
        | cons a b => exact ⟨a, b, rfl⟩
      obtain ⟨m', ms', hm'⟩ : ∃ m' ms', g'.members = m' :: ms' := by
        cases he : g'.members with
        | nil => exact absurd he hgg'.1.1
        | cons a b => exact ⟨a, b, rfl⟩
      have hcase := hgg'.2
      unfold GroupLe at hcase ⊢
      rcases hcase with hlt | ⟨heq, _⟩
      · exact Or.inl (by rw [mkG_date hm, mkG_date hm']; exact hlt)
      · refine Or.inr ⟨by rw [mkG_date hm, mkG_date hm', heq], ?_⟩
        rw [mkG_basePathG hm, mkG_basePathG hm']
        exact strLe_of_strLt
          (@run2Key_lt w pfx p n j g g' h0 hnj (by omega) hg hgg'.1)
    · exact ih (j + 1) (by omega) (by omega)
        (fun x hx => hall x (List.mem_cons_of_mem g' hx)) b hb'

/-- The canonical run-2 group list is already sorted by the source's
comparison, so the second run's `sort_by` leaves it unchanged. -/
theorem run2Groups_sorted (w : Nat) (pfx p : Str) :
    ∀ (gs : List ImgGroup) (n : Nat), 0 < n → n + gs.length ≤ 10 ^ w →
    (∀ g ∈ gs, C6blockOK p g) → List.Pairwise GroupLe gs →
    List.Pairwise GroupLe ((run2Groups w pfx n gs).map Prod.snd) := by
  intro gs
  induction gs with
  | nil =>
    intro n _ _ _ _
    simp [run2Groups]
  | cons g gs ih =>
    intro n h0 hbound hblocks hpw
    simp only [List.length_cons] at hbound
    rw [show run2Groups w pfx n (g :: gs)
        = (run2Key w pfx n g, mkG w pfx n g) :: run2Groups w pfx (n + 1) gs from rfl,
      List.map_cons]
    rw [List.pairwise_cons] at hpw ⊢
    constructor
    · exact run2Groups_head_le w pfx p (hblocks g (List.mem_cons_self g gs)) h0
        gs (n + 1) (by omega) (by omega)
        (fun g' hg' => ⟨hblocks g' (List.mem_cons_of_mem g hg'), hpw.1 g' hg'⟩)
    · exact ih (n + 1) (by omega) (by omega)
        (fun g' hg' => hblocks g' (List.mem_cons_of_mem g hg')) hpw.2

theorem run2Groups_length (w : Nat) (pfx : Str) :
    ∀ (gs : List ImgGroup) (n : Nat), (run2Groups w pfx n gs).length = gs.length := by
  intro gs
  induction gs with
  | nil => intro n; rfl
  | cons g gs ih =>
    intro n
    show (run2Groups w pfx n (g :: gs)).length = gs.length + 1
    rw [show run2Groups w pfx n (g :: gs)
        = (run2Key w pfx n g, mkG w pfx n g) :: run2Groups w pfx (n + 1) gs from rfl]
    simp [ih (n + 1)]

/-- Processing the canonical run-2 groups with matching sequence numbering
performs no renames and prints nothing, for any sidecar store and dry-run
setting. -/
theorem processGroups_run2_nil (docs2 : FsPath → Sidecar) (pfx p : Str) (w : Nat)
    (d : Bool) : ∀ (gs : List ImgGroup) (n : Nat), (∀ g ∈ gs, C6blockOK p g) →
    (processGroups docs2 pfx w d n ((run2Groups w pfx n gs).map Prod.snd)).renames = []
    ∧ (processGroups docs2 pfx w d n ((run2Groups w pfx n gs).map Prod.snd)).prints = [] := by
  intro gs
  induction gs with
  | nil => intro n _; exact ⟨rfl, rfl⟩
  | cons g gs ih =>
    intro n hblocks
    have hg := hblocks g (List.mem_cons_self g gs)
    rw [show (run2Groups w pfx n (g :: gs)).map Prod.snd
        = mkG w pfx n g :: (run2Groups w pfx (n + 1) gs).map Prod.snd from rfl]
    have hmem : ∀ m' ∈ (mkG w pfx n g).members,
        (processMember docs2 n pfx w d m').renames = []
        ∧ (processMember docs2 n pfx w d m').prints = [] := by
      intro m' hm'
      obtain ⟨m, hmmem, rfl⟩ := List.mem_map.mp hm'
      obtain ⟨ext, hext, hxmp⟩ := role_some_ext (hg.2.2.1 m hmmem).1
      exact run2_member_noop docs2 d hext hxmp (hg.2.2.1 m hmmem).2.2
    have hms := processMembers_nil_of docs2 n pfx w d (mkG w pfx n g).members hmem
    have hrest := ih (n + 1) (fun g' hg' => hblocks g' (List.mem_cons_of_mem g hg'))
    by_cases hok : (processMembers docs2 n pfx w d (mkG w pfx n g).members).ok = true
    · simp only [processGroups, if_pos hok, ReorgOut.comb_renames, ReorgOut.comb_prints]
      constructor
      · show (processMembers docs2 n pfx w d (mkG w pfx n g).members).renames ++ _ = []
        rw [hms.1, hrest.1]
        rfl
      · show (processMembers docs2 n pfx w d (mkG w pfx n g).members).prints ++ _ = []
        rw [hms.2, hrest.2]
        rfl
    · simp only [processGroups, if_neg hok]
      exact ⟨hms.1, hms.2⟩

/-- A successful run-1 build, on inputs from one scanned directory with
conventional sidecars and base-path-consistent metadata, yields groups
satisfying all the facts the idempotence argument needs. -/
theorem blocksOK_of_build {imgs : List ImgInfo} {gs : List ImgGroup} {p : Str}
    (hb : build_imgs_groups imgs = some gs)
    (hpar : ∀ i ∈ imgs, i.path.parent = p)
    (hsc : ∀ i ∈ imgs, ∀ sp ∈ i.sidecar_path,
      sp.name = i.path.name ++ ".xmp".toList)
    (hagree : ∀ i ∈ imgs, ∀ j ∈ imgs, i.base_path = j.base_path →
      i.date = j.date ∧ i.model = j.model) :
    ∀ g ∈ gs, C6blockOK p g := by
  intro g hgmem
  have hwf := buildPerm_groups_wf (fun l => List.Perm.refl l)
    (hb : buildPerm id imgs = some gs) g hgmem
  refine ⟨hwf.1, hwf.2.1, ?_, ?_⟩
  · intro m hm
    have h3 := hwf.2.2.1 m hm
    exact ⟨h3.1, hpar m.2 h3.2, hsc m.2 h3.2⟩
  · intro m hm m' hm'
    have h3 := hwf.2.2.1 m hm
    have h3' := hwf.2.2.1 m' hm'
    exact hagree m.2 h3.2 m'.2 h3'.2 (hwf.2.2.2 m m' hm hm')

/-- C6: `rename_file` really is a no-op — no filesystem rename, and also no
printed line — whenever the computed name equals the current one (first
conjunct; the claim's "no-op, not an error" also holds of the returned path,
second conjunct: the non-dry-run result path is exactly the renamed state
`run2Info` records).  The idempotence half of the claim, however, does not
hold unconditionally (see `C6_counterexample`); it holds for inputs whose
grouping is stable: when all scanned images come from one directory `p`, use
the conventional `name + ".xmp"` sidecar naming, and images sharing a base
path agree on timestamp and model, then a second run on the renamed output
(same prefix and digit settings, any sidecar contents, dry run or not)
rebuilds one group per run-1 group in the same order and performs no renames
and prints nothing. -/
theorem C6_noop_rename_and_conditional_idempotence (imgs : List ImgInfo)
    (gs : List ImgGroup) (pfx p : Str) (digits : Option Nat)
    (hb : build_imgs_groups imgs = some gs)
    (hpar : ∀ i ∈ imgs, i.path.parent = p)
    (hsc : ∀ i ∈ imgs, ∀ sp ∈ i.sidecar_path,
      sp.name = i.path.name ++ ".xmp".toList)
    (hagree : ∀ i ∈ imgs, ∀ j ∈ imgs, i.base_path = j.base_path →
      i.date = j.date ∧ i.model = j.model)
    (hw : gs.length < 10 ^ digitsOf digits gs.length) :
    (∀ (src : FsPath) (i : Nat) (img : ImgInfo) (d : Bool),
        targetFileName i img pfx (digitsOf digits gs.length) src.name = src.name →
        rename_file src i img pfx (digitsOf digits gs.length) d = ⟨src, [], []⟩)
    ∧ (∀ (i : Nat) (m : ImgRole × ImgInfo),
        (rename_file m.2.path i m.2 pfx (digitsOf digits gs.length) false).path
          = (run2Info (digitsOf digits gs.length) pfx i m).path)
    ∧ ∃ gs2,
        build_imgs_groups (run2Files (digitsOf digits gs.length) pfx gs) = some gs2
        ∧ gs2.length = gs.length
        ∧ ∀ (docs2 : FsPath → Sidecar) (d2 : Bool),
            (reorganize_images gs2 pfx d2 digits docs2).renames = []
            ∧ (reorganize_images gs2 pfx d2 digits docs2).prints = [] := by
  refine ⟨fun src i img d h => rename_file_noop d h, fun i m => rfl, ?_⟩
  set w := digitsOf digits gs.length with hwdef
  have hblocks := blocksOK_of_build hb hpar hsc hagree
  have hlen1 : 1 + gs.length ≤ 10 ^ w := by omega
  have hroles : ∀ g ∈ gs, ∀ m ∈ g.members, m.2.role = some m.1 :=
    fun g hg m hm => ((hblocks g hg).2.2.1 m hm).1
  have htag := tagImgs_run2 w pfx gs 1 hroles
  have hfold := foldGroups_run2 w pfx p gs hlen1 hblocks
  have hsort1 : List.Sorted GroupLe gs := by
    obtain ⟨tagged, -, hgs⟩ := buildPerm_eq_some hb
    rw [hgs]
    exact List.sorted_insertionSort GroupLe _
  have hsort2 := run2Groups_sorted w pfx p gs 1 (by omega) hlen1 hblocks hsort1
  have h1 : buildPerm id (run2FilesAux w pfx 1 gs)
      = some (List.insertionSort GroupLe
        ((foldGroups (run2TaggedAux w pfx 1 gs)).map
          fun kg => ImgGroup.mk (id kg.2.members))) := by
    unfold buildPerm
    rw [htag]
  rw [hfold] at h1
  have hmap : ((run2Groups w pfx 1 gs).map fun kg => ImgGroup.mk (id kg.2.members))
      = (run2Groups w pfx 1 gs).map Prod.snd := rfl
  rw [hmap] at h1
  rw [List.Sorted.insertionSort_eq (hsort2 : List.Sorted GroupLe _)] at h1
  have hlen2 : ((run2Groups w pfx 1 gs).map Prod.snd).length = gs.length := by
    rw [List.length_map, run2Groups_length]
  refine ⟨(run2Groups w pfx 1 gs).map Prod.snd, h1, hlen2, ?_⟩
  intro docs2 d2
  have hwd : digitsOf digits ((run2Groups w pfx 1 gs).map Prod.snd).length = w := by
    rw [hlen2, hwdef]
  unfold reorganize_images
  rw [hwd]
  exact processGroups_run2_nil docs2 pfx p w d2 gs 1 hblocks

/-- Fixture: a raw/JPG pair sharing the base path `/d/a` but with *different*
capture timestamps (10:00 vs 12:00). -/
def c6N : ImgInfo :=
  ⟨⟨"/d".toList, "a.NEF".toList⟩, none, ⟨2024, 1, 1, 10, 0, 0⟩, "M".toList⟩

/-- Fixture: the camera JPG paired with `c6N`, two hours later. -/
def c6J : ImgInfo :=
  ⟨⟨"/d".toList, "a.JPG".toList⟩, none, ⟨2024, 1, 1, 12, 0, 0⟩, "M".toList⟩

/-- Fixture: `c6N` as run 1 leaves it on disk. -/
def c6f1 : ImgInfo :=
  ⟨⟨"/d".toList, "1 2024-01-01 10-00-00 M.NEF".toList⟩, none,
    ⟨2024, 1, 1, 10, 0, 0⟩, "M".toList⟩

/-- Fixture: `c6J` as run 1 leaves it on disk. -/
def c6f2 : ImgInfo :=
  ⟨⟨"/d".toList, "1 2024-01-01 12-00-00 M.JPG".toList⟩, none,
    ⟨2024, 1, 1, 12, 0, 0⟩, "M".toList⟩

/-- Counterexample to C6's idempotence half as stated: a raw+JPG pair sharing
one base path but disagreeing on capture timestamp forms one group on run 1
and is renamed with each member's *own* timestamp, so the renamed files no
longer share a base path; run 2 splits them into two groups, assigns the JPG
sequence index 2, and renames it again.  A second run on already-renamed
output therefore performs a further rename. -/
theorem C6_counterexample :
    build_imgs_groups [c6N, c6J]
      = some [⟨[(ImgRole.Raw, c6N), (ImgRole.CameraJPG, c6J)]⟩]
    ∧ (reorganize_images [⟨[(ImgRole.Raw, c6N), (ImgRole.CameraJPG, c6J)]⟩]
        [] false none constDocs).renames
      = [(c6N.path, c6f1.path), (c6J.path, c6f2.path)]
    ∧ build_imgs_groups [c6f1, c6f2]
      = some [⟨[(ImgRole.Raw, c6f1)]⟩, ⟨[(ImgRole.CameraJPG, c6f2)]⟩]
    ∧ (reorganize_images [⟨[(ImgRole.Raw, c6f1)]⟩, ⟨[(ImgRole.CameraJPG, c6f2)]⟩]
        [] false none constDocs).renames ≠ [] := by decide

/-- Witness for the amended C6 at a concrete input: a single raw image in
`/d`; the second run rebuilds one group and renames and prints nothing. -/
theorem C6_witness :
    build_imgs_groups [c6N] = some [⟨[(ImgRole.Raw, c6N)]⟩]
    ∧ (∀ i ∈ [c6N], i.path.parent = "/d".toList)
    ∧ 1 < 10 ^ digitsOf none 1
    ∧ ∃ gs2,
        build_imgs_groups (run2Files (digitsOf none 1) [] [⟨[(ImgRole.Raw, c6N)]⟩])
          = some gs2
        ∧ gs2.length = 1
        ∧ ∀ (docs2 : FsPath → Sidecar) (d2 : Bool),
            (reorganize_images gs2 [] d2 none docs2).renames = []
            ∧ (reorganize_images gs2 [] d2 none docs2).prints = [] :=
  ⟨by decide, by decide, by decide,
    (C6_noop_rename_and_conditional_idempotence [c6N] [⟨[(ImgRole.Raw, c6N)]⟩] []
      ("/d".toList) none (by decide) (by decide) (by decide) (by decide)
      (by decide)).2.2⟩
